import Mathlib

/-!
# r2pipe (Go): pipe transport and NUL framing

A shallow embedding of `r2pipe/go/r2pipe/r2pipe.go`.  Go values are modelled as
follows.

* A Go `string` or `[]byte` is a `List Byte`.
* A Go `error` is an `Option Error` (`none` is `nil`).
* The operating system is an explicit `World`: the environment variables, the
  descriptor table, the process table, the answer the system gives to a launch
  of the engine, and the trace of system calls made so far.  Every function of
  the package that performs I/O takes a `World` and returns the new one.
* A `Pipe` holds handles only, as in the source; all stream state is in the
  `World`.

The library functions the package calls (`bufio.Reader.ReadString`,
`strings.TrimRight`, `strconv.Atoi`, `os.NewFile`, `fmt.Fprintln`,
`exec.Cmd.Wait`) are modelled after the Go standard library.
-/

namespace r2pipe

/-! ## Bytes and errors -/

/-- A byte of a Go string. -/
abbrev Byte := Nat

/-- The Go `int` width of the platform (amd64, arm64). -/
def intSize : Nat := 64

/-- The error values that reach the package. -/
inductive Error where
  /-- The value io.EOF. -/
  | EOF
  /-- The value io.ErrNoProgress. -/
  | ErrNoProgress
  /-- The value bufio.ErrBufferFull. -/
  | ErrBufferFull
  /-- The value os.ErrInvalid: a method called on a nil file. -/
  | ErrInvalid
  /-- The value errors.New("missing R2PIPE_{IN,OUT} vars"). -/
  | missingVars
  /-- A strconv.NumError wrapping strconv.ErrSyntax. -/
  | numSyn (s : List Byte)
  /-- A strconv.NumError wrapping strconv.ErrRange. -/
  | numRange (s : List Byte)
  /-- The error of exec: Wait on a command that was not started. -/
  | notStarted
  /-- The error of exec: Wait was already called. -/
  | waitTwice
  /-- A nil pointer dereference (a run-time panic). -/
  | nilDeref
  /-- A failure reported by the system (an errno such as EBADF = 9 or
  EPIPE = 32, or an exit status). -/
  | sys (code : Nat)
  deriving DecidableEq, Repr

/-! ## Streams -/

/-- The read side of an open descriptor.  `pending` are the bytes the peer has
produced and the client has not read yet.  `sched` says how the bytes arrive:
its head `k` means the next `Read` finds `k + 1` bytes ready (an exhausted
schedule means everything pending is ready).  Once `pending` is empty every
`Read` fails: with io.EOF when `ending` is `none` (the peer closed the stream),
with the errno `c` when it is `some c`. -/
structure ReadEnd where
  pending : List Byte
  sched : List Nat
  ending : Option Nat
  deriving DecidableEq, Repr

/-- The error a file returns for an ending. -/
def Error.ofEnding : Option Nat → Error
  | none => .EOF
  | some c => .sys c

/-- One `read(2)` through `os.File.Read` with a buffer of `cap` bytes: like a
Go file it returns either at least one byte and no error, or no byte and an
error (and `0, nil` only for an empty buffer). -/
def ReadEnd.read (r : ReadEnd) (cap : Nat) : (List Byte × Option Error) × ReadEnd :=
  if cap = 0 then (([], none), r)
  else
    match r.pending with
    | [] => (([], some (Error.ofEnding r.ending)), r)
    | _ :: _ =>
      let ready := match r.sched with
        | [] => r.pending.length
        | k :: _ => k + 1
      let n := min cap ready
      ((r.pending.take n, none),
        { r with pending := r.pending.drop n, sched := r.sched.tail })

/-- The write side of an open descriptor.  `written` are the bytes accepted so
far; `room` is how many more bytes are accepted before writes fail with the
errno `werr` (`none`: the descriptor never fails). -/
structure WriteEnd where
  written : List Byte
  room : Option Nat
  werr : Nat
  deriving DecidableEq, Repr

/-- One `os.File.Write`: all of `p` is accepted, or a leading part of it and
the error is returned. -/
def WriteEnd.write (s : WriteEnd) (p : List Byte) : (Nat × Option Error) × WriteEnd :=
  match s.room with
  | none => ((p.length, none), { s with written := s.written ++ p })
  | some k =>
    if p.length ≤ k then
      ((p.length, none), { s with written := s.written ++ p, room := some (k - p.length) })
    else
      ((k, some (.sys s.werr)), { s with written := s.written ++ p.take k, room := some 0 })

/-- The kernel state of one open descriptor. -/
structure OpenFile where
  rd : ReadEnd
  wr : WriteEnd
  deriving DecidableEq, Repr

/-- A read side on which nothing can be read. -/
def ReadEnd.closed : ReadEnd := { pending := [], sched := [], ending := some 9 }

/-- A write side that accepts nothing. -/
def WriteEnd.closed : WriteEnd := { written := [], room := some 0, werr := 9 }

/-! ## The world -/

/-- A system call recorded in the trace. -/
inductive Event where
  /-- A `Write` of the buffer `p` on descriptor `fd`. -/
  | write (fd : Nat) (p : List Byte)
  /-- A `Read` on descriptor `fd` with room for `cap` bytes that returned `got` bytes. -/
  | read (fd : Nat) (cap : Nat) (got : Nat)
  /-- A process was started with this argument vector. -/
  | start (argv : List (List Byte))
  /-- A `Wait` on process `pid`. -/
  | wait (pid : Nat)
  deriving DecidableEq, Repr

/-- Whether the event is a `Read` on descriptor `fd`. -/
def Event.isReadOn (fd : Nat) : Event → Bool
  | .read g _ _ => g = fd
  | _ => false

/-- Whether the event is a `Write`. -/
def Event.isWrite : Event → Bool
  | .write _ _ => true
  | _ => false

/-- A child process: what `Wait` reports when it exits, and how many times it
has been waited on. -/
structure Proc where
  exit : Option Error
  waited : Nat
  deriving DecidableEq, Repr

/-- What the system answers when the engine is launched: the errors (if any) of
`StdinPipe`, `StdoutPipe` and `Start`, the two pipe ends the client gets, and
the exit status of the child. -/
structure Launch where
  stdinPipe : Option Error
  stdoutPipe : Option Error
  start : Option Error
  inp : WriteEnd
  out : ReadEnd
  exit : Option Error

/-- The state of the operating system as far as the package can observe it. -/
structure World where
  env : List (List Byte × List Byte)
  files : List OpenFile
  procs : List Proc
  exec : List (List Byte) → Launch
  trace : List Event

/-- The Go function os.Getenv: the value of the variable, empty when unset. -/
def os.Getenv (w : World) (key : List Byte) : List Byte :=
  (w.env.lookup key).getD []

/-- A Go `*os.File`: a descriptor number and a name. -/
structure os.File where
  fd : Nat
  name : List Byte
  deriving DecidableEq, Repr

/-- The Go conversion `uintptr(i)` of an `int`. -/
def uintptr (i : Int) : Nat := (i % 2 ^ intSize).toNat

/-- The Go function os.NewFile: `nil` when the descriptor, read back as an
`int`, is negative; it does not check that the descriptor is open. -/
def os.NewFile (fd : Nat) (name : List Byte) : Option os.File :=
  let fdi : Int := if fd < 2 ^ (intSize - 1) then (fd : Int) else (fd : Int) - 2 ^ intSize
  if fdi < 0 then none else some { fd := fdi.toNat, name := name }

/-- The method `(*os.File).Read` with a buffer of `cap` bytes. -/
def os.File.Read (w : World) (f : Option os.File) (cap : Nat) :
    (List Byte × Option Error) × World :=
  match f with
  | none => (([], some .ErrInvalid), w)
  | some h =>
    match w.files[h.fd]? with
    | none => (([], some (.sys 9)), { w with trace := w.trace ++ [.read h.fd cap 0] })
    | some F =>
      match F.rd.read cap with
      | ((p, err), rd1) =>
        ((p, err), { w with
          files := w.files.set h.fd { F with rd := rd1 },
          trace := w.trace ++ [.read h.fd cap p.length] })

/-- The method `(*os.File).Write`. -/
def os.File.Write (w : World) (f : Option os.File) (p : List Byte) :
    (Nat × Option Error) × World :=
  match f with
  | none => ((0, some .ErrInvalid), w)
  | some h =>
    match w.files[h.fd]? with
    | none => ((0, some (.sys 9)), { w with trace := w.trace ++ [.write h.fd p] })
    | some F =>
      match F.wr.write p with
      | (r, wr1) =>
        (r, { w with
          files := w.files.set h.fd { F with wr := wr1 },
          trace := w.trace ++ [.write h.fd p] })

/-- A Go `*exec.Cmd` after `Start`: the argument vector and the child. -/
structure exec.Cmd where
  args : List (List Byte)
  pid : Nat
  deriving DecidableEq, Repr

/-- The method `(*exec.Cmd).Wait`: the exit status of the child the first time,
an error afterwards. -/
def exec.Cmd.Wait (w : World) (c : Option exec.Cmd) : Option Error × World :=
  match c with
  | none => (some .nilDeref, w)
  | some cmd =>
    match w.procs[cmd.pid]? with
    | none => (some .notStarted, w)
    | some P =>
      (if P.waited = 0 then P.exit else some .waitTwice,
        { w with
          procs := w.procs.set cmd.pid { P with waited := P.waited + 1 },
          trace := w.trace ++ [.wait cmd.pid] })

/-! ## The package -/

/-- The struct `Pipe` of the source (lines 48-53). -/
structure Pipe where
  File : List Byte
  cmd : Option exec.Cmd
  stdin : Option os.File
  stdout : Option os.File
  deriving DecidableEq, Repr

/-- The method `Pipe.Write` (lines 121-123). -/
def Pipe.Write (w : World) (r2p : Pipe) (p : List Byte) : (Nat × Option Error) × World :=
  os.File.Write w r2p.stdin p

/-- The method `Pipe.Read` (lines 127-129). -/
def Pipe.Read (w : World) (r2p : Pipe) (cap : Nat) : (List Byte × Option Error) × World :=
  os.File.Read w r2p.stdout cap

/-- The Go function fmt.Fprintln with one string operand: the operand and a
newline, handed to the writer in one `Write`. -/
def fmt.Fprintln (w : World) (r2p : Pipe) (a : List Byte) : (Nat × Option Error) × World :=
  r2p.Write w (a ++ [10])

/-- The two readers the package wraps in a `bufio.Reader`: a file (line 106)
and a `Pipe` (line 136). -/
inductive io.Reader where
  | file (f : Option os.File)
  | pipe (p : Pipe)
  deriving DecidableEq, Repr

/-- The interface method `Read` of the reader. -/
def io.Reader.Read (w : World) (rd : io.Reader) (cap : Nat) :
    (List Byte × Option Error) × World :=
  match rd with
  | .file f => os.File.Read w f cap
  | .pipe p => p.Read w cap

/-- The file a reader reads from. -/
def io.Reader.handle : io.Reader → Option os.File
  | .file f => f
  | .pipe p => p.stdout

/-- The number of bytes pending on the descriptor behind a reader. -/
def io.Reader.remaining (w : World) (rd : io.Reader) : Nat :=
  match rd.handle with
  | none => 0
  | some h =>
    match w.files[h.fd]? with
    | none => 0
    | some F => F.rd.pending.length

/-! ### bufio -/

/-- The constant bufio.defaultBufSize. -/
def bufio.defaultBufSize : Nat := 4096

/-- The constant bufio.maxConsecutiveEmptyReads. -/
def bufio.maxConsecutiveEmptyReads : Nat := 100

/-- A Go `bufio.Reader`.  `size` is `len(b.buf)` and `data` is the buffered
part `b.buf[b.r:b.w]`; `fill` always slides that part to the front of the
buffer before it reads, so the room it offers to `Read` is `size` minus the
length of `data`. -/
structure bufio.Reader where
  size : Nat
  data : List Byte
  rd : io.Reader
  err : Option Error
  deriving DecidableEq, Repr

/-- The Go function bufio.NewReader. -/
def bufio.NewReader (rd : io.Reader) : bufio.Reader :=
  { size := bufio.defaultBufSize, data := [], rd := rd, err := none }

/-- The read loop of `(*bufio.Reader).fill`, with `i` attempts left. -/
def bufio.Reader.fillLoop : Nat → World → bufio.Reader → World × bufio.Reader
  | 0, w, b => (w, { b with err := some .ErrNoProgress })
  | i + 1, w, b =>
    match b.rd.Read w (b.size - b.data.length) with
    | ((p, err), w1) =>
      match err with
      | some e => (w1, { b with data := b.data ++ p, err := some e })
      | none =>
        if 0 < p.length then (w1, { b with data := b.data ++ p })
        else fillLoop i w1 { b with data := b.data ++ p }

/-- The method `(*bufio.Reader).fill`: one read into the free part of the buffer. -/
def bufio.Reader.fill (w : World) (b : bufio.Reader) : World × bufio.Reader :=
  bufio.Reader.fillLoop bufio.maxConsecutiveEmptyReads w b

/-- The Go function bytes.IndexByte (`none` for -1). -/
def bytes.IndexByte : List Byte → Byte → Option Nat
  | [], _ => none
  | x :: xs, c => if x = c then some 0 else (bytes.IndexByte xs c).map (· + 1)

/-- The loop of `(*bufio.Reader).ReadSlice`; `s` is the search start index.
Every turn that does not leave the loop either adds a byte to the buffer or
sets the reader's error, so `size + 2` turns are enough. -/
def bufio.Reader.readSliceLoop (delim : Byte) :
    Nat → World → bufio.Reader → Nat → (List Byte × Option Error) × World × bufio.Reader
  | 0, w, b, _ => (([], some .ErrNoProgress), w, b)
  | fuel + 1, w, b, s =>
    match bytes.IndexByte (b.data.drop s) delim with
    | some i =>
      ((b.data.take (s + i + 1), none), w, { b with data := b.data.drop (s + i + 1) })
    | none =>
      match b.err with
      | some e => ((b.data, some e), w, { b with data := [], err := none })
      | none =>
        if b.size ≤ b.data.length then
          ((b.data, some .ErrBufferFull), w, { b with data := [] })
        else
          match b.fill w with
          | (w1, b1) => readSliceLoop delim fuel w1 b1 b.data.length

/-- The method `(*bufio.Reader).ReadSlice`. -/
def bufio.Reader.ReadSlice (w : World) (b : bufio.Reader) (delim : Byte) :
    (List Byte × Option Error) × World × bufio.Reader :=
  bufio.Reader.readSliceLoop delim (b.size + 2) w b 0

/-- The loop of `(*bufio.Reader).collectFragments`: full buffers are set aside
until `ReadSlice` finds the delimiter or fails. -/
def bufio.Reader.collectLoop (delim : Byte) :
    Nat → World → bufio.Reader → List (List Byte) →
      (List (List Byte) × List Byte × Option Error) × World × bufio.Reader
  | 0, w, b, full => ((full, [], some .ErrNoProgress), w, b)
  | fuel + 1, w, b, full =>
    match b.ReadSlice w delim with
    | ((frag, none), w1, b1) => ((full, frag, none), w1, b1)
    | ((frag, some e), w1, b1) =>
      if e = .ErrBufferFull then collectLoop delim fuel w1 b1 (full ++ [frag])
      else ((full, frag, some e), w1, b1)

/-- The method `(*bufio.Reader).collectFragments`.  Each full buffer takes
`size` bytes off the stream, so the loop turns at most once per byte that is
buffered or pending, plus once. -/
def bufio.Reader.collectFragments (w : World) (b : bufio.Reader) (delim : Byte) :
    (List (List Byte) × List Byte × Option Error) × World × bufio.Reader :=
  bufio.Reader.collectLoop delim (b.data.length + b.rd.remaining w + 1) w b []

/-- The method `(*bufio.Reader).ReadString`: the full buffers and the last
fragment, joined, with the error. -/
def bufio.Reader.ReadString (w : World) (b : bufio.Reader) (delim : Byte) :
    (List Byte × Option Error) × World × bufio.Reader :=
  match b.collectFragments w delim with
  | ((full, frag, err), w1, b1) => ((full.flatten ++ frag, err), w1, b1)

/-! ### strings and strconv -/

/-- The loop of strings.TrimRight on the reversed string. -/
def strings.trimLeftRev (cutset : List Byte) : List Byte → List Byte
  | [] => []
  | x :: xs => if x ∈ cutset then strings.trimLeftRev cutset xs else x :: xs

/-- The Go function strings.TrimRight for an ASCII cutset: bytes are taken off
the end while they belong to the cutset. -/
def strings.TrimRight (s cutset : List Byte) : List Byte :=
  (strings.trimLeftRev cutset s.reverse).reverse

/-- The digit loop of strconv.ParseUint in base 10: `n` is the value so far.
`cutoff` is `maxUint64/10 + 1` and `maxVal` is `2^bitSize - 1`. -/
def strconv.parseDigits (s0 : List Byte) : List Byte → Nat → Except Error Nat
  | [], n => .ok n
  | c :: cs, n =>
    if 48 ≤ c ∧ c ≤ 57 then
      if (2 ^ 64 - 1) / 10 + 1 ≤ n then .error (.numRange s0)
      else
        let n1 := n * 10 + (c - 48)
        if 2 ^ intSize - 1 < n1 then .error (.numRange s0)
        else strconv.parseDigits s0 cs n1
    else .error (.numSyn s0)

/-- The Go function strconv.ParseUint(s, 10, 0). -/
def strconv.ParseUint (s : List Byte) : Except Error Nat :=
  match s with
  | [] => .error (.numSyn s)
  | _ :: _ => strconv.parseDigits s s 0

/-- The Go function strconv.ParseInt(s, 10, 0): a sign, then ParseUint, then
the range check against `2^(intSize-1)`. -/
def strconv.ParseInt (s : List Byte) : Except Error Int :=
  match s with
  | [] => .error (.numSyn s)
  | c :: cs =>
    let neg := decide (c = 45)
    let body := if c = 43 ∨ c = 45 then cs else s
    match strconv.ParseUint body with
    | .error (.numRange _) => .error (.numRange s)
    | .error _ => .error (.numSyn s)
    | .ok un =>
      let cutoff := 2 ^ (intSize - 1)
      if !neg ∧ cutoff ≤ un then .error (.numRange s)
      else if neg ∧ cutoff < un then .error (.numRange s)
      else .ok (if neg then -(un : Int) else (un : Int))

/-- The Go function strconv.Atoi, which is ParseInt(s, 10, 0). -/
def strconv.Atoi (s : List Byte) : Except Error Int :=
  strconv.ParseInt s

/-! ### The constructors and methods of the source -/

/-- The string "R2PIPE_IN". -/
def R2PIPE_IN : List Byte := [82, 50, 80, 73, 80, 69, 95, 73, 78]

/-- The string "R2PIPE_OUT". -/
def R2PIPE_OUT : List Byte := [82, 50, 80, 73, 80, 69, 95, 79, 85, 84]

/-- The function `newPipeFd` (lines 66-90). -/
def newPipeFd (w : World) : Except Error Pipe × World :=
  let r2pipeIn := os.Getenv w R2PIPE_IN
  let r2pipeOut := os.Getenv w R2PIPE_OUT
  if r2pipeIn = [] ∨ r2pipeOut = [] then (.error .missingVars, w)
  else
    match strconv.Atoi r2pipeIn with
    | .error err => (.error err, w)
    | .ok r2pipeInFd =>
      match strconv.Atoi r2pipeOut with
      | .error err => (.error err, w)
      | .ok r2pipeOutFd =>
        let stdout := os.NewFile (uintptr r2pipeInFd) R2PIPE_IN
        let stdin := os.NewFile (uintptr r2pipeOutFd) R2PIPE_OUT
        (.ok { File := [], cmd := none, stdin := stdin, stdout := stdout }, w)

/-- The argument vector of `exec.Command("r2", "-q0", file)`. -/
def engineArgv (file : List Byte) : List (List Byte) :=
  [[114, 50], [45, 113, 48], file]

/-- The function `newPipeCmd` (lines 92-117).  `StdinPipe` and `StdoutPipe`
each open a new descriptor; `Start` adds the child to the process table; then
the startup output is read up to the first NUL with a `bufio.Reader` that is
not kept. -/
def newPipeCmd (w : World) (file : List Byte) : Except Error Pipe × World :=
  let L := w.exec (engineArgv file)
  match L.stdinPipe with
  | some err => (.error err, w)
  | none =>
    let stdin : os.File := { fd := w.files.length, name := [] }
    let w1 := { w with files := w.files ++ [{ rd := ReadEnd.closed, wr := L.inp }] }
    match L.stdoutPipe with
    | some err => (.error err, w1)
    | none =>
      let stdout : os.File := { fd := w1.files.length, name := [] }
      let w2 := { w1 with files := w1.files ++ [{ rd := L.out, wr := WriteEnd.closed }] }
      match L.start with
      | some err => (.error err, w2)
      | none =>
        let cmd : exec.Cmd := { args := engineArgv file, pid := w2.procs.length }
        let w3 := { w2 with
          procs := w2.procs ++ [{ exit := L.exit, waited := 0 }],
          trace := w2.trace ++ [.start (engineArgv file)] }
        match (bufio.NewReader (.file (some stdout))).ReadString w3 0 with
        | ((_, some err), w4, _) => (.error err, w4)
        | ((_, none), w4, _) =>
          (.ok { File := file, cmd := some cmd, stdin := some stdin, stdout := some stdout }, w4)

/-- The function `NewPipe` (lines 59-64). -/
def NewPipe (w : World) (file : List Byte) : Except Error Pipe × World :=
  if file = [] then newPipeFd w else newPipeCmd w file

/-- The method `Pipe.Run` (lines 132-141). -/
def Pipe.Run (w : World) (r2p : Pipe) (cmd : List Byte) : (List Byte × Option Error) × World :=
  match fmt.Fprintln w r2p cmd with
  | ((_, some err), w1) => (([], some err), w1)
  | ((_, none), w1) =>
    match (bufio.NewReader (.pipe r2p)).ReadString w1 0 with
    | ((_, some err), w2, _) => (([], some err), w2)
    | ((buf, none), w2, _) => ((strings.TrimRight buf [10, 0], none), w2)

/-- The method `Pipe.SetVar` (lines 144-147). -/
def Pipe.SetVar (w : World) (r2p : Pipe) (name value : List Byte) : Option Error × World :=
  match r2p.Run w ([101, 32] ++ name ++ [61] ++ value) with
  | ((_, err), w1) => (err, w1)

/-- The method `Pipe.Var` (lines 150-152). -/
def Pipe.Var (w : World) (r2p : Pipe) (name : List Byte) : (List Byte × Option Error) × World :=
  r2p.Run w ([101, 32] ++ name)

/-- The string "q!". -/
def quitCmd : List Byte := [113, 33]

/-- The method `Pipe.Close` (lines 155-163). -/
def Pipe.Close (w : World) (r2p : Pipe) : Option Error × World :=
  if r2p.File = [] then (none, w)
  else
    match r2p.Run w quitCmd with
    | ((_, some err), w1) => (some err, w1)
    | ((_, none), w1) => exec.Cmd.Wait w1 r2p.cmd

/-! ## Predicates used in the statements -/

/-- Descriptor `fd` is open in `w`, its pending bytes are `pend` and its
ending is `e`. -/
def StreamAt (w : World) (fd : Nat) (pend : List Byte) (e : Option Nat) : Prop :=
  ∃ F, w.files[fd]? = some F ∧ F.rd.pending = pend ∧ F.rd.ending = e

/-- The event is a `Read` on the descriptor of the file `f`. -/
def Event.readsFrom (f : Option os.File) (ev : Event) : Prop :=
  ∃ h, f = some h ∧ ev.isReadOn h.fd = true

/-- A step from `w` to `w1` that only reads from the file `f`: environment,
processes and launch answers are kept, no write side changes, and the trace
grows by reads on `f` only. -/
def ReadsOnly (f : Option os.File) (w w1 : World) : Prop :=
  w1.env = w.env ∧ w1.procs = w.procs ∧ w1.exec = w.exec ∧
  (∀ j : Nat, (w1.files[j]?).map OpenFile.wr = (w.files[j]?).map OpenFile.wr) ∧
  ∃ evs, w1.trace = w.trace ++ evs ∧ ∀ ev ∈ evs, ev.readsFrom f

/-- What one `ReadSlice` returns on a reader of buffer size `size` when the
bytes still to come (buffered, then pending) are `V`: the line, the error and
the bytes left over. -/
def sliceSpec (d : Byte) (size : Nat) (e : Option Nat) (V : List Byte) :
    List Byte × Option Error × List Byte :=
  match bytes.IndexByte V d with
  | some i =>
    if i < size then (V.take (i + 1), none, V.drop (i + 1))
    else (V.take size, some .ErrBufferFull, V.drop size)
  | none =>
    if size ≤ V.length then (V.take size, some .ErrBufferFull, V.drop size)
    else (V, some (Error.ofEnding e), [])

/-- What `ReadString` returns when the bytes still to come are `V`: the bytes
through the first delimiter and no error, or everything and the ending. -/
def stringSpec (d : Byte) (e : Option Nat) (V : List Byte) :
    List Byte × Option Error × List Byte :=
  match bytes.IndexByte V d with
  | some i => (V.take (i + 1), none, V.drop (i + 1))
  | none => (V, some (Error.ofEnding e), [])

/-- The bytes pending on the output stream of a `Pipe` (none when the stream
is not an open descriptor). -/
def Pipe.outPending (w : World) (r2p : Pipe) : List Byte :=
  match r2p.stdout with
  | none => []
  | some h =>
    match w.files[h.fd]? with
    | none => []
    | some F => F.rd.pending

/-- A launch in which both pipes open and the engine starts; the engine's
output is `out` and its input accepts `room` bytes. -/
def demoLaunch (out : ReadEnd) (room : Option Nat) : Launch :=
  { stdinPipe := none, stdoutPipe := none, start := none,
    inp := { written := [], room := room, werr := 32 }, out := out, exit := none }

/-- A world with a client connected to an engine: descriptor 0 is the engine's
input (it accepts `room` bytes, then fails with EPIPE), descriptor 1 is the
engine's output with `pend` pending, delivered as `sched` says and then closed;
process 0 is the engine, which exits cleanly.  A launch gives an engine with
the same output. -/
def demoWorld (pend : List Byte) (sched : List Nat) (room : Option Nat) : World :=
  { env := [],
    files := [{ rd := ReadEnd.closed, wr := { written := [], room := room, werr := 32 } },
      { rd := { pending := pend, sched := sched, ending := none }, wr := WriteEnd.closed }],
    procs := [{ exit := none, waited := 0 }],
    exec := fun _ => demoLaunch { pending := pend, sched := sched, ending := none } room,
    trace := [] }

/-- The spawn-mode `Pipe` of `demoWorld`, for the target "/". -/
def demoPipe : Pipe :=
  { File := [47], cmd := some { args := engineArgv [47], pid := 0 },
    stdin := some { fd := 0, name := [] }, stdout := some { fd := 1, name := [] } }

/-- The attach-mode `Pipe` of `demoWorld`. -/
def demoAttached : Pipe :=
  { File := [], cmd := none,
    stdin := some { fd := 0, name := R2PIPE_OUT }, stdout := some { fd := 1, name := R2PIPE_IN } }

/-- A world in which R2PIPE_IN and R2PIPE_OUT are set to the given strings. -/
def envWorld (vin vout : List Byte) : World :=
  { demoWorld [] [] none with env := [(R2PIPE_IN, vin), (R2PIPE_OUT, vout)] }

/-! ## Streams and files -/

theorem ReadEnd.read_nil (r : ReadEnd) (cap : Nat) (hc : 0 < cap) (hp : r.pending = []) :
    r.read cap = (([], some (Error.ofEnding r.ending)), r) := by
  unfold ReadEnd.read
  rw [if_neg (by omega)]
  rw [hp]

theorem ReadEnd.read_cons (r : ReadEnd) (cap : Nat) (hc : 0 < cap) (hp : r.pending ≠ []) :
    ∃ p rd1, r.read cap = ((p, none), rd1) ∧ p ≠ [] ∧ p.length ≤ cap ∧
      r.pending = p ++ rd1.pending ∧ rd1.ending = r.ending := by
  obtain ⟨pend, sched, e⟩ := r
  cases pend with
  | nil => exact absurd rfl hp
  | cons x xs =>
    unfold ReadEnd.read
    rw [if_neg (by omega)]
    refine ⟨_, _, rfl, ?_, ?_, ?_, rfl⟩
    · intro h
      have hl := congrArg List.length h
      rw [List.length_take] at hl
      cases sched <;> simp at hl <;> omega
    · rw [List.length_take]
      exact le_trans (min_le_left _ _) (min_le_left _ _)
    · exact (List.take_append_drop _ _).symm

theorem os.File.Read_nil (w : World) (h : os.File) (cap : Nat) (e : Option Nat)
    (hs : StreamAt w h.fd [] e) (hc : 0 < cap) :
    ∃ w1, os.File.Read w (some h) cap = (([], some (Error.ofEnding e)), w1) ∧
      StreamAt w1 h.fd [] e := by
  obtain ⟨F, hF, hp, he⟩ := hs
  have hlt : h.fd < w.files.length := by
    rcases Nat.lt_or_ge h.fd w.files.length with hl | hl
    · exact hl
    · rw [List.getElem?_eq_none hl] at hF; cases hF
  unfold os.File.Read
  simp only [hF]
  rw [ReadEnd.read_nil F.rd cap hc hp]
  refine ⟨_, by rw [he], ?_⟩
  exact ⟨_, by simp [List.getElem?_set, hlt], hp, he⟩

theorem os.File.Read_cons (w : World) (h : os.File) (cap : Nat) (pend : List Byte)
    (e : Option Nat) (hs : StreamAt w h.fd pend e) (hc : 0 < cap) (hne : pend ≠ []) :
    ∃ p rest w1, os.File.Read w (some h) cap = ((p, none), w1) ∧ p ≠ [] ∧ p.length ≤ cap ∧
      pend = p ++ rest ∧ StreamAt w1 h.fd rest e := by
  obtain ⟨F, hF, hp, he⟩ := hs
  have hlt : h.fd < w.files.length := by
    rcases Nat.lt_or_ge h.fd w.files.length with hl | hl
    · exact hl
    · rw [List.getElem?_eq_none hl] at hF; cases hF
  obtain ⟨p, rd1, hr, hpne, hpl, hsplit, hend⟩ := ReadEnd.read_cons F.rd cap hc (by rw [hp]; exact hne)
  unfold os.File.Read
  simp only [hF, hr]
  refine ⟨p, rd1.pending, _, rfl, hpne, hpl, by rw [← hp]; exact hsplit, ?_⟩
  exact ⟨{ F with rd := rd1 }, by simp [List.getElem?_set, hlt], rfl, by rw [← he]; exact hend⟩

/-! ## Searching for the delimiter -/

theorem bytes.IndexByte_eq_none {l : List Byte} {d : Byte} :
    bytes.IndexByte l d = none ↔ d ∉ l := by
  induction l with
  | nil => simp [bytes.IndexByte]
  | cons x xs ih =>
    unfold bytes.IndexByte
    by_cases hx : x = d
    · simp [hx]
    · simp [hx, ih, Ne.symm hx]

theorem bytes.IndexByte_lt {l : List Byte} {d : Byte} {i : Nat}
    (h : bytes.IndexByte l d = some i) : i < l.length := by
  induction l generalizing i with
  | nil => simp [bytes.IndexByte] at h
  | cons x xs ih =>
    unfold bytes.IndexByte at h
    by_cases hx : x = d
    · simp [hx] at h; subst h; simp
    · simp only [hx, if_false, Option.map_eq_some'] at h
      obtain ⟨j, hj, rfl⟩ := h
      have := ih hj
      simp; omega

theorem bytes.IndexByte_append_left {a l : List Byte} {d : Byte} {i : Nat}
    (h : bytes.IndexByte a d = some i) : bytes.IndexByte (a ++ l) d = some i := by
  induction a generalizing i with
  | nil => simp [bytes.IndexByte] at h
  | cons x xs ih =>
    simp only [List.cons_append]
    unfold bytes.IndexByte at h ⊢
    by_cases hx : x = d
    · simpa [hx] using h
    · simp only [hx, if_false, Option.map_eq_some'] at h ⊢
      obtain ⟨j, hj, rfl⟩ := h
      exact ⟨j, ih hj, rfl⟩

theorem bytes.IndexByte_append_right {a l : List Byte} {d : Byte} (h : d ∉ a) :
    bytes.IndexByte (a ++ l) d = (bytes.IndexByte l d).map (· + a.length) := by
  induction a with
  | nil => simp
  | cons x xs ih =>
    have hx : x ≠ d := fun hxd => h (by simp [hxd])
    have hxs : d ∉ xs := fun hm => h (List.mem_cons_of_mem _ hm)
    simp only [List.cons_append]
    rw [show bytes.IndexByte (x :: (xs ++ l)) d =
      (if x = d then some 0 else (bytes.IndexByte (xs ++ l) d).map (· + 1)) from rfl]
    rw [if_neg hx, ih hxs]
    cases bytes.IndexByte l d <;> simp [Nat.add_assoc]

theorem bytes.IndexByte_split (pre post : List Byte) (d : Byte) (h : d ∉ pre) :
    bytes.IndexByte (pre ++ d :: post) d = some pre.length := by
  rw [bytes.IndexByte_append_right h]
  simp [bytes.IndexByte]

theorem bytes.IndexByte_take {l : List Byte} {d : Byte} {i : Nat}
    (h : bytes.IndexByte l d = some i) : d ∉ l.take i ∧ l.take (i + 1) = l.take i ++ [d] := by
  induction l generalizing i with
  | nil => simp [bytes.IndexByte] at h
  | cons x xs ih =>
    unfold bytes.IndexByte at h
    by_cases hx : x = d
    · simp [hx] at h; subst h; simp [hx]
    · simp only [hx, if_false, Option.map_eq_some'] at h
      obtain ⟨j, hj, rfl⟩ := h
      obtain ⟨h1, h2⟩ := ih hj
      refine ⟨?_, ?_⟩
      · simp only [List.take_succ_cons, List.mem_cons, not_or]
        exact ⟨Ne.symm hx, h1⟩
      · simp only [List.take_succ_cons, List.cons_append, h2]

theorem bytes.IndexByte_drop {l : List Byte} {d : Byte} {i k : Nat}
    (h : bytes.IndexByte l d = some i) (hk : k ≤ i) :
    bytes.IndexByte (l.drop k) d = some (i - k) := by
  have hlt := bytes.IndexByte_lt h
  obtain ⟨hfree, _⟩ := bytes.IndexByte_take h
  have hfree2 : d ∉ l.take k := by
    intro hm
    apply hfree
    have : l.take k = (l.take i).take k := by
      rw [List.take_take, Nat.min_eq_left hk]
    rw [this] at hm
    exact List.mem_of_mem_take hm
  have hsplit : l = l.take k ++ l.drop k := (List.take_append_drop k l).symm
  rw [hsplit, bytes.IndexByte_append_right hfree2] at h
  cases hd : bytes.IndexByte (l.drop k) d with
  | none => rw [hd] at h; simp at h
  | some j =>
    rw [hd] at h
    simp only [Option.map_some', Option.some.injEq, List.length_take] at h
    have : min k l.length = k := Nat.min_eq_left (by omega)
    rw [this] at h
    congr 1; omega

/-! ## The buffered reader -/

theorem io.Reader.Read_eq (w : World) (rd : io.Reader) (cap : Nat) :
    rd.Read w cap = os.File.Read w rd.handle cap := by
  cases rd <;> rfl

theorem bufio.Reader.fill_nil (w : World) (b : bufio.Reader) (h : os.File) (e : Option Nat)
    (hh : b.rd.handle = some h) (hs : StreamAt w h.fd [] e) (hlt : b.data.length < b.size) :
    ∃ w1, b.fill w = (w1, { b with err := some (Error.ofEnding e) }) ∧
      StreamAt w1 h.fd [] e := by
  obtain ⟨w1, hr, hs1⟩ := os.File.Read_nil w h (b.size - b.data.length) e hs (by omega)
  refine ⟨w1, ?_, hs1⟩
  unfold bufio.Reader.fill bufio.maxConsecutiveEmptyReads
  rw [show (100 : Nat) = 99 + 1 from rfl, bufio.Reader.fillLoop, io.Reader.Read_eq, hh, hr]
  simp

theorem bufio.Reader.fill_cons (w : World) (b : bufio.Reader) (h : os.File) (e : Option Nat)
    (pend : List Byte) (hh : b.rd.handle = some h) (hs : StreamAt w h.fd pend e)
    (hlt : b.data.length < b.size) (hne : pend ≠ []) :
    ∃ p rest w1, b.fill w = (w1, { b with data := b.data ++ p }) ∧ p ≠ [] ∧
      (b.data ++ p).length ≤ b.size ∧ pend = p ++ rest ∧ StreamAt w1 h.fd rest e := by
  obtain ⟨p, rest, w1, hr, hpne, hpl, hsplit, hs1⟩ :=
    os.File.Read_cons w h (b.size - b.data.length) pend e hs (by omega) hne
  refine ⟨p, rest, w1, ?_, hpne, ?_, hsplit, hs1⟩
  · unfold bufio.Reader.fill bufio.maxConsecutiveEmptyReads
    rw [show (100 : Nat) = 99 + 1 from rfl, bufio.Reader.fillLoop, io.Reader.Read_eq, hh, hr]
    have hpos : 0 < p.length := List.length_pos.mpr hpne
    simp [hpos]
  · rw [List.length_append]; omega

theorem bufio.Reader.readSliceLoop_spec (d : Byte) (h : os.File) (e : Option Nat) :
    ∀ (fuel : Nat) (w : World) (b : bufio.Reader) (s : Nat) (pend : List Byte),
      b.rd.handle = some h → StreamAt w h.fd pend e →
      b.data.length ≤ b.size → s ≤ b.data.length → d ∉ b.data.take s →
      (b.err = none ∨
        (b.err = some (Error.ofEnding e) ∧ pend = [] ∧ b.data.length < b.size ∧
          b.data.length ≤ s)) →
      (if b.err = none then b.size - b.data.length + 2 else 1) ≤ fuel →
      ∃ w1 b1 pend1,
        bufio.Reader.readSliceLoop d fuel w b s =
          (((sliceSpec d b.size e (b.data ++ pend)).1,
            (sliceSpec d b.size e (b.data ++ pend)).2.1), w1, b1) ∧
        b1.data ++ pend1 = (sliceSpec d b.size e (b.data ++ pend)).2.2 ∧
        StreamAt w1 h.fd pend1 e ∧ b1.err = none ∧ b1.rd = b.rd ∧ b1.size = b.size ∧
        ((sliceSpec d b.size e (b.data ++ pend)).2.1 ≠ none → b1.data = []) := by
  intro fuel
  induction fuel with
  | zero =>
    intro w b s pend _ _ _ _ _ _ hfuel
    exfalso
    split_ifs at hfuel <;> omega
  | succ n ih =>
    intro w b s pend hh hs hsz hs1 hscan herr hfuel
    have hdata : b.data = b.data.take s ++ b.data.drop s := (List.take_append_drop s b.data).symm
    have hlen : (b.data.take s).length = s := by
      rw [List.length_take]; exact Nat.min_eq_left hs1
    rw [bufio.Reader.readSliceLoop]
    cases hidx : bytes.IndexByte (b.data.drop s) d with
    | some i =>
      have h1 : bytes.IndexByte b.data d = some (i + s) := by
        rw [hdata, bytes.IndexByte_append_right hscan, hidx, hlen]; rfl
      have hV : bytes.IndexByte (b.data ++ pend) d = some (i + s) :=
        bytes.IndexByte_append_left h1
      have hlt : i + s < b.size := lt_of_lt_of_le (bytes.IndexByte_lt h1) hsz
      have hlt2 : i + s < b.data.length := bytes.IndexByte_lt h1
      have hspec : sliceSpec d b.size e (b.data ++ pend) =
          ((b.data ++ pend).take (i + s + 1), none, (b.data ++ pend).drop (i + s + 1)) := by
        unfold sliceSpec; rw [hV]; simp only [hlt, if_true]
      rw [hspec]
      refine ⟨w, { b with data := b.data.drop (s + i + 1) }, pend, ?_, ?_, hs, ?_, rfl, rfl, ?_⟩
      · simp only
        have : (b.data ++ pend).take (i + s + 1) = b.data.take (s + i + 1) := by
          rw [Nat.add_comm i s, List.take_append_of_le_length (by omega)]
        rw [this]
      · simp only
        rw [Nat.add_comm i s, List.drop_append_of_le_length (by omega)]
      · cases herr with
        | inl h0 => exact h0
        | inr h0 =>
          exfalso
          have : b.data.drop s = [] := List.drop_eq_nil_of_le h0.2.2.2
          rw [this] at hidx
          simp [bytes.IndexByte] at hidx
      · intro hc; exact absurd rfl hc
    | none =>
      have hfree : d ∉ b.data := by
        rw [hdata, List.mem_append, not_or]
        exact ⟨hscan, bytes.IndexByte_eq_none.mp hidx⟩
      have hfull : b.data.take b.data.length = b.data := List.take_length _
      simp only
      cases herr with
      | inr h0 =>
        obtain ⟨he, hp, hlt, _⟩ := h0
        subst hp
        have hspec : sliceSpec d b.size e (b.data ++ []) =
            (b.data, some (Error.ofEnding e), []) := by
          unfold sliceSpec
          rw [List.append_nil, bytes.IndexByte_eq_none.mpr hfree]
          simp only [if_neg (Nat.not_le.mpr hlt)]
        rw [hspec, he]
        exact ⟨w, { b with data := [], err := none }, [], rfl, rfl, hs, rfl, rfl, rfl,
          fun _ => rfl⟩
      | inl h0 =>
        rw [h0]
        simp only
        by_cases hsize : b.size ≤ b.data.length
        · have heq : b.data.length = b.size := le_antisymm hsz hsize
          have hspec : sliceSpec d b.size e (b.data ++ pend) =
              (b.data, some .ErrBufferFull, pend) := by
            unfold sliceSpec
            rw [bytes.IndexByte_append_right hfree]
            have ht : (b.data ++ pend).take b.size = b.data := by
              rw [← heq]; exact List.take_left' rfl
            have hd : (b.data ++ pend).drop b.size = pend := by
              rw [← heq]; exact List.drop_left' rfl
            cases hp : bytes.IndexByte pend d with
            | none =>
              simp only [Option.map_none', List.length_append]
              rw [if_pos (by omega), ht, hd]
            | some j =>
              simp only [Option.map_some']
              rw [if_neg (by omega), ht, hd]
          rw [hspec, if_pos hsize]
          exact ⟨w, _, pend, rfl, rfl, hs, rfl, rfl, rfl, fun _ => rfl⟩
        · rw [if_neg hsize]
          have hlt : b.data.length < b.size := Nat.not_le.mp hsize
          have hneed : b.size - b.data.length + 2 ≤ n + 1 := by
            rw [if_pos h0] at hfuel; exact hfuel
          cases hpend : pend with
          | nil =>
            subst hpend
            obtain ⟨w1, hfill, hs1'⟩ := bufio.Reader.fill_nil w b h e hh hs hlt
            rw [hfill]
            simp only
            obtain ⟨w2, b2, pend2, hr, hd2, hs2, he2, hrd2, hsz2, hnil2⟩ :=
              ih w1 { b with err := some (Error.ofEnding e) } b.data.length [] hh hs1' hsz
                (le_refl _) (by rw [hfull]; exact hfree)
                (Or.inr ⟨rfl, rfl, hlt, le_refl _⟩)
                (by simp only [reduceCtorEq, if_false]; omega)
            exact ⟨w2, b2, pend2, hr, hd2, hs2, he2, hrd2, hsz2, hnil2⟩
          | cons x xs =>
            rw [← hpend]
            obtain ⟨p, rest, w1, hfill, hpne, hpl, hsplit, hs1'⟩ :=
              bufio.Reader.fill_cons w b h e pend hh hs hlt (by rw [hpend]; simp)
            rw [hfill]
            simp only
            have hpos : 0 < p.length := List.length_pos.mpr hpne
            have hl2 : (b.data ++ p).length = b.data.length + p.length := List.length_append _ _
            obtain ⟨w2, b2, pend2, hr, hd2, hs2, he2, hrd2, hsz2, hnil2⟩ :=
              ih w1 { b with data := b.data ++ p } b.data.length rest hh hs1' hpl
                (by simp only [hl2]; omega)
                (by simp only [List.take_left' rfl]; exact hfree)
                (Or.inl h0)
                (by simp only [h0, if_true, hl2]; omega)
            have hV : (b.data ++ p) ++ rest = b.data ++ pend := by
              rw [List.append_assoc, ← hsplit]
            simp only [hV] at hr hd2 hnil2
            exact ⟨w2, b2, pend2, hr, hd2, hs2, he2, hrd2, hsz2, hnil2⟩

theorem Error.ofEnding_ne_full (e : Option Nat) : Error.ofEnding e ≠ .ErrBufferFull := by
  cases e <;> simp [Error.ofEnding]

theorem bufio.Reader.collectLoop_spec (d : Byte) (h : os.File) (e : Option Nat) :
    ∀ (fuel : Nat) (w : World) (b : bufio.Reader) (full : List (List Byte)) (pend : List Byte),
      b.rd.handle = some h → StreamAt w h.fd pend e → b.data = [] → b.err = none →
      0 < b.size → pend.length + 1 ≤ fuel →
      ∃ full1 frag w1 b1 pend1,
        bufio.Reader.collectLoop d fuel w b full =
          ((full1, frag, (stringSpec d e pend).2.1), w1, b1) ∧
        full1.flatten ++ frag = full.flatten ++ (stringSpec d e pend).1 ∧
        b1.data ++ pend1 = (stringSpec d e pend).2.2 ∧ StreamAt w1 h.fd pend1 e := by
  intro fuel
  induction fuel with
  | zero => intro w b full pend _ _ _ _ _ hfuel; omega
  | succ n ih =>
    intro w b full pend hh hs hdata herr hsize hfuel
    obtain ⟨w1, b1, pend1, hr, hd1, hs1, he1, hrd1, hsz1, hnil1⟩ :=
      bufio.Reader.readSliceLoop_spec d h e (b.size + 2) w b 0 pend hh hs
        (by rw [hdata]; exact Nat.zero_le _) (Nat.zero_le _) (by simp) (Or.inl herr)
        (by rw [if_pos herr]; omega)
    rw [hdata, List.nil_append] at hr hd1 hnil1
    rw [bufio.Reader.collectLoop, bufio.Reader.ReadSlice, hr]
    cases hidx : bytes.IndexByte pend d with
    | some i =>
      have hilt := bytes.IndexByte_lt hidx
      have hstr : stringSpec d e pend = (pend.take (i + 1), none, pend.drop (i + 1)) := by
        unfold stringSpec; rw [hidx]
      by_cases hi : i < b.size
      · have hspec : sliceSpec d b.size e pend = (pend.take (i + 1), none, pend.drop (i + 1)) := by
          unfold sliceSpec; rw [hidx]; simp only [hi, if_true]
        rw [hspec] at hd1 ⊢
        rw [hstr]
        exact ⟨full, _, w1, b1, pend1, rfl, rfl, hd1, hs1⟩
      · have hspec : sliceSpec d b.size e pend =
            (pend.take b.size, some .ErrBufferFull, pend.drop b.size) := by
          unfold sliceSpec; rw [hidx]; simp only [hi, if_false]
        rw [hspec] at hd1 hnil1 ⊢
        simp only [if_true]
        have hb1 : b1.data = [] := hnil1 (by simp)
        rw [hb1, List.nil_append] at hd1
        subst hd1
        have hle : b.size ≤ i := Nat.not_lt.mp hi
        obtain ⟨full2, frag2, w2, b2, pend2, hr2, hj2, hd2, hs2⟩ :=
          ih w1 b1 (full ++ [pend.take b.size]) (pend.drop b.size) (by rw [hrd1]; exact hh) hs1
            hb1 he1 (by rw [hsz1]; exact hsize) (by rw [List.length_drop]; omega)
        have hstr2 : stringSpec d e (pend.drop b.size) =
            ((pend.drop b.size).take (i - b.size + 1), none,
              (pend.drop b.size).drop (i - b.size + 1)) := by
          unfold stringSpec; rw [bytes.IndexByte_drop hidx hle]
        rw [hstr2] at hr2 hj2 hd2
        rw [hstr]
        refine ⟨full2, frag2, w2, b2, pend2, hr2, ?_, ?_, hs2⟩
        · rw [hj2]
          simp only [List.flatten_append, List.flatten_cons, List.flatten_nil, List.append_nil,
            List.append_assoc]
          congr 1
          have : i + 1 = b.size + (i - b.size + 1) := by omega
          rw [this]
          exact (List.take_add _ _ _).symm
        · rw [hd2]
          simp only [List.drop_drop]
          have : b.size + (i - b.size + 1) = i + 1 := by omega
          rw [this]
    | none =>
      have hstr : stringSpec d e pend = (pend, some (Error.ofEnding e), []) := by
        unfold stringSpec; rw [hidx]
      by_cases hfull : b.size ≤ pend.length
      · have hspec : sliceSpec d b.size e pend =
            (pend.take b.size, some .ErrBufferFull, pend.drop b.size) := by
          unfold sliceSpec; rw [hidx]; simp only [hfull, if_true]
        rw [hspec] at hd1 hnil1 ⊢
        simp only [if_true]
        have hb1 : b1.data = [] := hnil1 (by simp)
        rw [hb1, List.nil_append] at hd1
        subst hd1
        obtain ⟨full2, frag2, w2, b2, pend2, hr2, hj2, hd2, hs2⟩ :=
          ih w1 b1 (full ++ [pend.take b.size]) (pend.drop b.size) (by rw [hrd1]; exact hh) hs1
            hb1 he1 (by rw [hsz1]; exact hsize) (by rw [List.length_drop]; omega)
        have hfree : d ∉ pend.drop b.size := fun hm =>
          bytes.IndexByte_eq_none.mp hidx (List.mem_of_mem_drop hm)
        have hstr2 : stringSpec d e (pend.drop b.size) =
            (pend.drop b.size, some (Error.ofEnding e), []) := by
          unfold stringSpec; rw [bytes.IndexByte_eq_none.mpr hfree]
        rw [hstr2] at hr2 hj2 hd2
        rw [hstr]
        refine ⟨full2, frag2, w2, b2, pend2, hr2, ?_, hd2, hs2⟩
        rw [hj2]
        simp only [List.flatten_append, List.flatten_cons, List.flatten_nil, List.append_nil,
          List.append_assoc, List.take_append_drop]
      · have hspec : sliceSpec d b.size e pend = (pend, some (Error.ofEnding e), []) := by
          unfold sliceSpec; rw [hidx]; simp only [hfull, if_false]
        rw [hspec] at hd1 ⊢
        rw [hstr]
        simp only [if_neg (Error.ofEnding_ne_full e)]
        exact ⟨full, _, w1, b1, pend1, rfl, rfl, hd1, hs1⟩

theorem io.Reader.remaining_eq (w : World) (rd : io.Reader) (h : os.File) (pend : List Byte)
    (e : Option Nat) (hh : rd.handle = some h) (hs : StreamAt w h.fd pend e) :
    rd.remaining w = pend.length := by
  obtain ⟨F, hF, hp, _⟩ := hs
  unfold io.Reader.remaining
  rw [hh]
  simp only [hF, hp]

/-- On a fresh reader over a stream whose pending bytes are `pend`, `ReadString`
returns what `stringSpec` says, and what is left on the stream and in the
reader's buffer together is the rest of `pend`. -/
theorem bufio.Reader.ReadString_spec (w : World) (rd : io.Reader) (h : os.File) (d : Byte)
    (pend : List Byte) (e : Option Nat) (hh : rd.handle = some h)
    (hs : StreamAt w h.fd pend e) :
    ∃ w1 b1 pend1,
      (bufio.NewReader rd).ReadString w d =
        (((stringSpec d e pend).1, (stringSpec d e pend).2.1), w1, b1) ∧
      b1.data ++ pend1 = (stringSpec d e pend).2.2 ∧ StreamAt w1 h.fd pend1 e := by
  obtain ⟨full1, frag, w1, b1, pend1, hr, hj, hd, hs1⟩ :=
    bufio.Reader.collectLoop_spec d h e (pend.length + 1) w (bufio.NewReader rd) [] pend hh hs
      rfl rfl (by simp [bufio.NewReader, bufio.defaultBufSize]) (le_refl _)
  refine ⟨w1, b1, pend1, ?_, hd, hs1⟩
  unfold bufio.Reader.ReadString bufio.Reader.collectFragments
  have hrem : (bufio.NewReader rd).rd.remaining w = pend.length :=
    io.Reader.remaining_eq w _ h pend e hh hs
  rw [hrem]
  have : (bufio.NewReader rd).data.length + pend.length + 1 = pend.length + 1 := by
    simp [bufio.NewReader]
  rw [this, hr]
  simp only [hj, List.flatten_nil, List.nil_append]

/-! ## What a read leaves alone -/

theorem ReadsOnly.refl (f : Option os.File) (w : World) : ReadsOnly f w w :=
  ⟨rfl, rfl, rfl, fun _ => rfl, [], by simp, by simp⟩

theorem ReadsOnly.trans {f : Option os.File} {w w1 w2 : World}
    (h1 : ReadsOnly f w w1) (h2 : ReadsOnly f w1 w2) : ReadsOnly f w w2 := by
  obtain ⟨a1, b1, c1, d1, evs1, t1, r1⟩ := h1
  obtain ⟨a2, b2, c2, d2, evs2, t2, r2⟩ := h2
  refine ⟨a2.trans a1, b2.trans b1, c2.trans c1, fun j => (d2 j).trans (d1 j),
    evs1 ++ evs2, by rw [t2, t1, List.append_assoc], ?_⟩
  intro ev hev
  rcases List.mem_append.mp hev with hm | hm
  · exact r1 ev hm
  · exact r2 ev hm

theorem os.File.Read_readsOnly (w : World) (f : Option os.File) (cap : Nat) :
    ReadsOnly f w (os.File.Read w f cap).2 := by
  cases f with
  | none => exact ReadsOnly.refl _ _
  | some h =>
    simp only [os.File.Read]
    cases hF : w.files[h.fd]? with
    | none =>
      refine ⟨rfl, rfl, rfl, fun _ => rfl, [.read h.fd cap 0], rfl, ?_⟩
      intro ev hev
      rw [List.mem_singleton] at hev
      subst hev
      exact ⟨h, rfl, by simp [Event.isReadOn]⟩
    | some F =>
      simp only
      refine ⟨rfl, rfl, rfl, ?_, [.read h.fd cap (F.rd.read cap).1.1.length], rfl, ?_⟩
      · intro j
        simp only [List.getElem?_set]
        by_cases hj : h.fd = j
        · subst hj
          by_cases hl : h.fd < w.files.length
          · simp [hl, hF]
          · rw [List.getElem?_eq_none (Nat.not_lt.mp hl)] at hF; cases hF
        · simp [hj]
      · intro ev hev
        rw [List.mem_singleton] at hev
        subst hev
        exact ⟨h, rfl, by simp [Event.isReadOn]⟩

theorem bufio.Reader.fillLoop_readsOnly :
    ∀ (i : Nat) (w : World) (b : bufio.Reader),
      ReadsOnly b.rd.handle w (bufio.Reader.fillLoop i w b).1 ∧
        (bufio.Reader.fillLoop i w b).2.rd = b.rd := by
  intro i
  induction i with
  | zero => intro w b; exact ⟨ReadsOnly.refl _ _, rfl⟩
  | succ n ih =>
    intro w b
    rw [bufio.Reader.fillLoop, io.Reader.Read_eq]
    have hr := os.File.Read_readsOnly w b.rd.handle (b.size - b.data.length)
    rcases hread : os.File.Read w b.rd.handle (b.size - b.data.length) with ⟨⟨p, err⟩, w1⟩
    rw [hread] at hr
    cases err with
    | some e => exact ⟨hr, rfl⟩
    | none =>
      simp only
      by_cases hp : 0 < p.length
      · rw [if_pos hp]; exact ⟨hr, rfl⟩
      · rw [if_neg hp]
        obtain ⟨h1, h2⟩ := ih w1 { b with data := b.data ++ p }
        exact ⟨ReadsOnly.trans hr h1, h2⟩

theorem bufio.Reader.readSliceLoop_readsOnly (d : Byte) :
    ∀ (fuel : Nat) (w : World) (b : bufio.Reader) (s : Nat),
      ReadsOnly b.rd.handle w (bufio.Reader.readSliceLoop d fuel w b s).2.1 ∧
        (bufio.Reader.readSliceLoop d fuel w b s).2.2.rd = b.rd := by
  intro fuel
  induction fuel with
  | zero => intro w b s; exact ⟨ReadsOnly.refl _ _, rfl⟩
  | succ n ih =>
    intro w b s
    rw [bufio.Reader.readSliceLoop]
    cases bytes.IndexByte (b.data.drop s) d with
    | some i => exact ⟨ReadsOnly.refl _ _, rfl⟩
    | none =>
      simp only
      cases b.err with
      | some e => exact ⟨ReadsOnly.refl _ _, rfl⟩
      | none =>
        simp only
        by_cases hsz : b.size ≤ b.data.length
        · rw [if_pos hsz]; exact ⟨ReadsOnly.refl _ _, rfl⟩
        · rw [if_neg hsz]
          obtain ⟨hf1, hf2⟩ := bufio.Reader.fillLoop_readsOnly bufio.maxConsecutiveEmptyReads w b
          obtain ⟨h1, h2⟩ := ih (b.fill w).1 (b.fill w).2 b.data.length
          unfold bufio.Reader.fill at h1 h2 ⊢
          rw [hf2] at h1 h2
          exact ⟨ReadsOnly.trans hf1 h1, h2⟩

theorem bufio.Reader.collectLoop_readsOnly (d : Byte) :
    ∀ (fuel : Nat) (w : World) (b : bufio.Reader) (full : List (List Byte)),
      ReadsOnly b.rd.handle w (bufio.Reader.collectLoop d fuel w b full).2.1 := by
  intro fuel
  induction fuel with
  | zero => intro w b full; exact ReadsOnly.refl _ _
  | succ n ih =>
    intro w b full
    rw [bufio.Reader.collectLoop]
    obtain ⟨h1, h2⟩ := bufio.Reader.readSliceLoop_readsOnly d (b.size + 2) w b 0
    unfold bufio.Reader.ReadSlice
    rcases hrs : bufio.Reader.readSliceLoop d (b.size + 2) w b 0 with ⟨⟨frag, err⟩, w1, b1⟩
    rw [hrs] at h1 h2
    cases err with
    | none => exact h1
    | some e =>
      simp only
      by_cases he : e = .ErrBufferFull
      · rw [if_pos he]
        have := ih w1 b1 (full ++ [frag])
        simp only at h2
        rw [h2] at this
        exact ReadsOnly.trans h1 this
      · rw [if_neg he]; exact h1

/-- Whatever the stream does, `ReadString` only reads from the reader's file. -/
theorem bufio.Reader.ReadString_readsOnly (w : World) (b : bufio.Reader) (d : Byte) :
    ReadsOnly b.rd.handle w (b.ReadString w d).2.1 := by
  unfold bufio.Reader.ReadString bufio.Reader.collectFragments
  exact bufio.Reader.collectLoop_readsOnly d _ w b []

/-! ## What a write leaves alone -/

theorem WriteEnd.write_ok (s : WriteEnd) (p : List Byte) (h : (s.write p).1.2 = none) :
    (s.write p).2.written = s.written ++ p := by
  unfold WriteEnd.write at h ⊢
  cases hr : s.room with
  | none => rfl
  | some k =>
    rw [hr] at h
    simp only at h ⊢
    by_cases hk : p.length ≤ k
    · rw [if_pos hk]
    · rw [if_neg hk] at h; simp at h

theorem os.File.Write_trace (w : World) (h : os.File) (p : List Byte) :
    (os.File.Write w (some h) p).2.trace = w.trace ++ [.write h.fd p] := by
  simp only [os.File.Write]
  cases w.files[h.fd]? <;> rfl

theorem os.File.Write_frame (w : World) (f : Option os.File) (p : List Byte) :
    (os.File.Write w f p).2.env = w.env ∧ (os.File.Write w f p).2.procs = w.procs ∧
    (os.File.Write w f p).2.exec = w.exec ∧
    ∀ j : Nat, ((os.File.Write w f p).2.files[j]?).map OpenFile.rd =
      (w.files[j]?).map OpenFile.rd := by
  cases f with
  | none => exact ⟨rfl, rfl, rfl, fun _ => rfl⟩
  | some h =>
    simp only [os.File.Write]
    cases hF : w.files[h.fd]? with
    | none => exact ⟨rfl, rfl, rfl, fun _ => rfl⟩
    | some F =>
      refine ⟨rfl, rfl, rfl, ?_⟩
      intro j
      simp only [List.getElem?_set]
      by_cases hj : h.fd = j
      · subst hj
        by_cases hl : h.fd < w.files.length
        · simp [hl, hF]
        · rw [List.getElem?_eq_none (Nat.not_lt.mp hl)] at hF; cases hF
      · simp [hj]

theorem os.File.Write_stream (w : World) (f : Option os.File) (p : List Byte) (fd : Nat)
    (pend : List Byte) (e : Option Nat) (hs : StreamAt w fd pend e) :
    StreamAt (os.File.Write w f p).2 fd pend e := by
  obtain ⟨F, hF, hp, he⟩ := hs
  have h := (os.File.Write_frame w f p).2.2.2 fd
  rw [hF] at h
  cases hF1 : (os.File.Write w f p).2.files[fd]? with
  | none => rw [hF1] at h; simp at h
  | some F1 =>
    rw [hF1] at h
    simp only [Option.map_some', Option.some.injEq] at h
    exact ⟨F1, hF1, by rw [h]; exact hp, by rw [h]; exact he⟩

theorem os.File.Write_closed (w : World) (f : Option os.File) (p : List Byte) (fd : Nat)
    (hs : w.files[fd]? = none) : (os.File.Write w f p).2.files[fd]? = none := by
  have h := (os.File.Write_frame w f p).2.2.2 fd
  rw [hs] at h
  cases hF1 : (os.File.Write w f p).2.files[fd]? with
  | none => rfl
  | some F1 => rw [hF1] at h; simp at h

theorem os.File.Write_written (w : World) (h : os.File) (p : List Byte) (G : OpenFile)
    (hG : w.files[h.fd]? = some G) (hok : (os.File.Write w (some h) p).1.2 = none) :
    ∃ G1, (os.File.Write w (some h) p).2.files[h.fd]? = some G1 ∧
      G1.wr.written = G.wr.written ++ p := by
  have hlt : h.fd < w.files.length := by
    rcases Nat.lt_or_ge h.fd w.files.length with hl | hl
    · exact hl
    · rw [List.getElem?_eq_none hl] at hG; cases hG
  simp only [os.File.Write, hG] at hok ⊢
  exact ⟨{ G with wr := (G.wr.write p).2 }, by simp [List.getElem?_set, hlt],
    WriteEnd.write_ok G.wr p hok⟩

/-! ## A reader whose first read fails -/

theorem bufio.Reader.ReadString_read_err (w w1 : World) (rd : io.Reader) (d : Byte) (e : Error)
    (hr : rd.Read w bufio.defaultBufSize = (([], some e), w1)) (he : e ≠ .ErrBufferFull)
    (hrem : rd.remaining w = 0) :
    ∃ b1, (bufio.NewReader rd).ReadString w d = (([], some e), w1, b1) := by
  have hfill : (bufio.NewReader rd).fill w =
      (w1, { bufio.NewReader rd with err := some e }) := by
    unfold bufio.Reader.fill bufio.maxConsecutiveEmptyReads
    rw [show (100 : Nat) = 99 + 1 from rfl, bufio.Reader.fillLoop]
    have : (bufio.NewReader rd).size - (bufio.NewReader rd).data.length
        = bufio.defaultBufSize := rfl
    rw [this]
    have hrd : (bufio.NewReader rd).rd = rd := rfl
    rw [hrd, hr]
    rfl
  unfold bufio.Reader.ReadString bufio.Reader.collectFragments
  have hrd : (bufio.NewReader rd).rd = rd := rfl
  rw [hrd, hrem]
  have hfuel : (bufio.NewReader rd).data.length + 0 + 1 = 0 + 1 := rfl
  rw [hfuel, bufio.Reader.collectLoop, bufio.Reader.ReadSlice]
  have hsz : (bufio.NewReader rd).size + 2 = 4096 + 1 + 1 := rfl
  rw [hsz, bufio.Reader.readSliceLoop]
  have hidx : bytes.IndexByte (List.drop 0 (bufio.NewReader rd).data) d = none := rfl
  rw [hidx]
  simp only
  have herr : (bufio.NewReader rd).err = none := rfl
  rw [herr]
  simp only
  have hnf : ¬ (bufio.NewReader rd).size ≤ (bufio.NewReader rd).data.length := by
    simp [bufio.NewReader, bufio.defaultBufSize]
  rw [if_neg hnf, hfill]
  simp only
  rw [bufio.Reader.readSliceLoop]
  have hidx2 : bytes.IndexByte
      (List.drop (bufio.NewReader rd).data.length (bufio.NewReader rd).data) d = none := rfl
  simp only [hidx2, if_neg he]
  exact ⟨_, rfl⟩

/-! ## Trimming -/

theorem strings.trimLeftRev_spec (cutset : List Byte) (l : List Byte) :
    ∃ pre, l = pre ++ strings.trimLeftRev cutset l ∧ (∀ x ∈ pre, x ∈ cutset) ∧
      ∀ x, (strings.trimLeftRev cutset l).head? = some x → x ∉ cutset := by
  induction l with
  | nil => exact ⟨[], rfl, by simp, by simp [strings.trimLeftRev]⟩
  | cons y ys ih =>
    by_cases hy : y ∈ cutset
    · obtain ⟨pre, h1, h2, h3⟩ := ih
      have hstep : strings.trimLeftRev cutset (y :: ys) = strings.trimLeftRev cutset ys := by
        rw [strings.trimLeftRev, if_pos hy]
      rw [hstep]
      refine ⟨y :: pre, by rw [List.cons_append, ← h1], ?_, h3⟩
      intro x hx
      rcases List.mem_cons.mp hx with hx | hx
      · rw [hx]; exact hy
      · exact h2 x hx
    · have hstep : strings.trimLeftRev cutset (y :: ys) = y :: ys := by
        rw [strings.trimLeftRev, if_neg hy]
      rw [hstep]
      refine ⟨[], rfl, by simp, ?_⟩
      intro x hx
      simp only [List.head?_cons, Option.some.injEq] at hx
      rw [← hx]; exact hy

theorem strings.TrimRight_spec (s cutset : List Byte) :
    ∃ suf, s = strings.TrimRight s cutset ++ suf ∧ (∀ x ∈ suf, x ∈ cutset) ∧
      ∀ x, (strings.TrimRight s cutset).getLast? = some x → x ∉ cutset := by
  obtain ⟨pre, h1, h2, h3⟩ := strings.trimLeftRev_spec cutset s.reverse
  refine ⟨pre.reverse, ?_, ?_, ?_⟩
  · unfold strings.TrimRight
    rw [← List.reverse_append, ← h1, List.reverse_reverse]
  · intro x hx
    exact h2 x (List.mem_reverse.mp hx)
  · intro x hx
    unfold strings.TrimRight at hx
    rw [List.getLast?_reverse] at hx
    exact h3 x hx

/-- Trimming a NUL-free body followed by the sentinel takes off the sentinel and
the newlines before it, and nothing else. -/
theorem strings.TrimRight_response (b : List Byte) (hb : 0 ∉ b) :
    (strings.TrimRight (b ++ [0]) [10, 0]).getLast? ≠ some 10 ∧
    (strings.TrimRight (b ++ [0]) [10, 0]).getLast? ≠ some 0 ∧
    ∃ k, b = strings.TrimRight (b ++ [0]) [10, 0] ++ List.replicate k 10 := by
  obtain ⟨suf, h1, h2, h3⟩ := strings.TrimRight_spec (b ++ [0]) [10, 0]
  generalize strings.TrimRight (b ++ [0]) [10, 0] = out at h1 h3 ⊢
  have hl10 : out.getLast? ≠ some 10 := fun h => h3 10 h (by simp)
  have hl0 : out.getLast? ≠ some 0 := fun h => h3 0 h (by simp)
  refine ⟨hl10, hl0, ?_⟩
  rcases List.eq_nil_or_concat suf with hs | ⟨ini, a, hs⟩
  · exfalso
    rw [hs, List.append_nil] at h1
    apply hl0
    rw [← h1]
    simp
  · rw [hs, List.concat_eq_append, ← List.append_assoc] at h1
    have hb2 : b = out ++ ini := List.append_inj_left' h1 rfl
    refine ⟨ini.length, ?_⟩
    rw [hb2]
    congr 1
    rw [List.eq_replicate_iff]
    refine ⟨rfl, ?_⟩
    intro x hx
    have hx1 : x ∈ [10, 0] := h2 x (by rw [hs, List.concat_eq_append]; simp [hx])
    have hx2 : x ∈ b := by rw [hb2]; simp [hx]
    simp only [List.mem_cons, List.mem_singleton, List.not_mem_nil, or_false] at hx1
    rcases hx1 with hx1 | hx1
    · exact hx1
    · rw [hx1] at hx2; exact absurd hx2 hb

/-! ## Descriptor numbers -/

theorem strconv.Atoi_ok_ne_nil {s : List Byte} {i : Int} (h : strconv.Atoi s = .ok i) :
    s ≠ [] := by
  intro hs
  rw [hs] at h
  simp [strconv.Atoi, strconv.ParseInt] at h

theorem strconv.Atoi_ok_lt {s : List Byte} {i : Int} (h : strconv.Atoi s = .ok i)
    (h0 : 0 ≤ i) : i < 2 ^ 63 := by
  cases s with
  | nil => simp [strconv.Atoi, strconv.ParseInt] at h
  | cons c cs =>
    simp only [strconv.Atoi, strconv.ParseInt] at h
    split at h
    · cases h
    · cases h
    · rename_i un _
      simp only [intSize] at h
      split_ifs at h with ha hb hc
      · cases h
        rename_i hneg
        have : (un : Int) = 0 := by omega
        omega
      · cases h
        simp only [Bool.not_eq_true', decide_eq_false_iff_not, not_and, Nat.not_le] at ha
        have := ha (by simpa using hc)
        have h2 : ((2 ^ (64 - 1) : Nat) : Int) = 2 ^ 63 := by norm_num
        omega

theorem os.NewFile_uintptr (i : Int) (name : List Byte) (h0 : 0 ≤ i) (h1 : i < 2 ^ 63) :
    os.NewFile (uintptr i) name = some { fd := i.toNat, name := name } := by
  have hu : uintptr i = i.toNat := by
    unfold uintptr intSize
    rw [Int.emod_eq_of_lt h0 (by omega)]
  have hlt : i.toNat < 2 ^ (64 - 1) := by
    have : (2 : Int) ^ 63 = ((2 ^ 63 : Nat) : Int) := by norm_num
    omega
  unfold os.NewFile
  rw [hu]
  simp only [intSize, hlt, if_true]
  have : ¬ ((i.toNat : Int) < 0) := by omega
  rw [if_neg this]
  have h2 : ((i.toNat : Int)).toNat = i.toNat := Int.toNat_ofNat _
  rw [h2]

/-! ## Run -/

theorem Pipe.Run_of_write_err (w : World) (r2p : Pipe) (cmd : List Byte) (err : Error)
    (h : (r2p.Write w (cmd ++ [10])).1.2 = some err) :
    r2p.Run w cmd = (([], some err), (r2p.Write w (cmd ++ [10])).2) := by
  have hw : r2p.Write w (cmd ++ [10]) =
      (((r2p.Write w (cmd ++ [10])).1.1, some err), (r2p.Write w (cmd ++ [10])).2) := by
    rw [← h]
  unfold Pipe.Run fmt.Fprintln
  rw [hw]

theorem Pipe.Write_eq_of_ok (w : World) (r2p : Pipe) (p : List Byte)
    (h : (r2p.Write w p).1.2 = none) :
    r2p.Write w p = (((r2p.Write w p).1.1, none), (r2p.Write w p).2) := by
  rw [← h]

theorem Pipe.Run_of_read_err (w : World) (r2p : Pipe) (cmd : List Byte) (w2 : World)
    (buf : List Byte) (e : Error) (b2 : bufio.Reader)
    (hw : (r2p.Write w (cmd ++ [10])).1.2 = none)
    (hr : (bufio.NewReader (.pipe r2p)).ReadString (r2p.Write w (cmd ++ [10])).2 0 =
      ((buf, some e), w2, b2)) :
    r2p.Run w cmd = (([], some e), w2) := by
  unfold Pipe.Run fmt.Fprintln
  rw [Pipe.Write_eq_of_ok w r2p _ hw]
  simp only
  rw [hr]

theorem Pipe.Run_of_read_ok (w : World) (r2p : Pipe) (cmd : List Byte) (w2 : World)
    (buf : List Byte) (b2 : bufio.Reader)
    (hw : (r2p.Write w (cmd ++ [10])).1.2 = none)
    (hr : (bufio.NewReader (.pipe r2p)).ReadString (r2p.Write w (cmd ++ [10])).2 0 =
      ((buf, none), w2, b2)) :
    r2p.Run w cmd = ((strings.TrimRight buf [10, 0], none), w2) := by
  unfold Pipe.Run fmt.Fprintln
  rw [Pipe.Write_eq_of_ok w r2p _ hw]
  simp only
  rw [hr]

theorem Pipe.Run_world_of_write_ok (w : World) (r2p : Pipe) (cmd : List Byte)
    (h : (r2p.Write w (cmd ++ [10])).1.2 = none) :
    (r2p.Run w cmd).2 =
      ((bufio.NewReader (.pipe r2p)).ReadString (r2p.Write w (cmd ++ [10])).2 0).2.1 := by
  rcases hr : (bufio.NewReader (.pipe r2p)).ReadString (r2p.Write w (cmd ++ [10])).2 0 with
    ⟨⟨buf, err⟩, w2, b2⟩
  cases err with
  | none => rw [Pipe.Run_of_read_ok w r2p cmd w2 buf b2 h hr]
  | some e => rw [Pipe.Run_of_read_err w r2p cmd w2 buf e b2 h hr]

/-- The trace of a `Run`: one `Write` of the command line, then reads of the
output stream only; and no read at all when the write fails. -/
theorem Pipe.Run_trace (w : World) (r2p : Pipe) (cmd : List Byte) (hi : os.File)
    (hin : r2p.stdin = some hi) :
    ∃ reads, (r2p.Run w cmd).2.trace = w.trace ++ Event.write hi.fd (cmd ++ [10]) :: reads ∧
      (∀ ev ∈ reads, ev.readsFrom r2p.stdout) ∧
      ((r2p.Write w (cmd ++ [10])).1.2 ≠ none → reads = []) := by
  have htr : (r2p.Write w (cmd ++ [10])).2.trace = w.trace ++ [.write hi.fd (cmd ++ [10])] := by
    unfold Pipe.Write; rw [hin]; exact os.File.Write_trace w hi _
  cases hw : (r2p.Write w (cmd ++ [10])).1.2 with
  | some err =>
    rw [Pipe.Run_of_write_err w r2p cmd err hw]
    exact ⟨[], by rw [htr], by simp, fun _ => rfl⟩
  | none =>
    rw [Pipe.Run_world_of_write_ok w r2p cmd hw]
    obtain ⟨_, _, _, _, evs, ht, hev⟩ :=
      bufio.Reader.ReadString_readsOnly (r2p.Write w (cmd ++ [10])).2
        (bufio.NewReader (.pipe r2p)) 0
    exact ⟨evs, by rw [ht, htr]; simp, hev, fun hc => absurd rfl hc⟩

/-- A `Run` keeps the environment and the process table. -/
theorem Pipe.Run_procs (w : World) (r2p : Pipe) (cmd : List Byte) :
    (r2p.Run w cmd).2.procs = w.procs := by
  have hf := os.File.Write_frame w r2p.stdin (cmd ++ [10])
  cases hw : (r2p.Write w (cmd ++ [10])).1.2 with
  | some err =>
    rw [Pipe.Run_of_write_err w r2p cmd err hw]
    exact hf.2.1
  | none =>
    rw [Pipe.Run_world_of_write_ok w r2p cmd hw]
    obtain ⟨_, hp, _⟩ :=
      bufio.Reader.ReadString_readsOnly (r2p.Write w (cmd ++ [10])).2
        (bufio.NewReader (.pipe r2p)) 0
    rw [hp]
    exact hf.2.1

/-- A `Run` whose write succeeds, on an output stream that holds a sentinel:
the result is the bytes before the first sentinel, trimmed; the stream has been
consumed through that sentinel and possibly further. -/
theorem Pipe.Run_found (w : World) (r2p : Pipe) (cmd pre post : List Byte) (ho : os.File)
    (e : Option Nat) (hout : r2p.stdout = some ho)
    (hw : (r2p.Write w (cmd ++ [10])).1.2 = none)
    (hs : StreamAt w ho.fd (pre ++ 0 :: post) e) (hpre : 0 ∉ pre) :
    ∃ w1 over pend1, r2p.Run w cmd = ((strings.TrimRight (pre ++ [0]) [10, 0], none), w1) ∧
      over ++ pend1 = post ∧ StreamAt w1 ho.fd pend1 e := by
  have hs1 : StreamAt (r2p.Write w (cmd ++ [10])).2 ho.fd (pre ++ 0 :: post) e :=
    os.File.Write_stream w r2p.stdin _ _ _ _ hs
  obtain ⟨w2, b2, pend2, hr, hd, hs2⟩ :=
    bufio.Reader.ReadString_spec (r2p.Write w (cmd ++ [10])).2 (.pipe r2p) ho 0
      (pre ++ 0 :: post) e hout hs1
  have hspec : stringSpec 0 e (pre ++ 0 :: post) = (pre ++ [0], none, post) := by
    unfold stringSpec
    rw [bytes.IndexByte_split pre post 0 hpre]
    have h1 : (pre ++ 0 :: post).take (pre.length + 1) = pre ++ [0] := by
      rw [show pre ++ 0 :: post = (pre ++ [0]) ++ post by simp]
      exact List.take_left' (by simp)
    have h2 : (pre ++ 0 :: post).drop (pre.length + 1) = post := by
      rw [show pre ++ 0 :: post = (pre ++ [0]) ++ post by simp]
      exact List.drop_left' (by simp)
    simp only [h1, h2]
  rw [hspec] at hr hd
  exact ⟨w2, b2.data, pend2, Pipe.Run_of_read_ok w r2p cmd w2 _ b2 hw hr, hd, hs2⟩

/-- A `Run` on an output stream that holds no sentinel fails. -/
theorem Pipe.Run_not_found (w : World) (r2p : Pipe) (cmd : List Byte)
    (h : 0 ∉ r2p.outPending w) : ∃ err w1, r2p.Run w cmd = (([], some err), w1) := by
  cases hw : (r2p.Write w (cmd ++ [10])).1.2 with
  | some err => exact ⟨err, _, Pipe.Run_of_write_err w r2p cmd err hw⟩
  | none =>
    have key : ∀ (buf : List Byte) (e : Error) (w2 : World) (b2 : bufio.Reader),
        (bufio.NewReader (.pipe r2p)).ReadString (r2p.Write w (cmd ++ [10])).2 0 =
          ((buf, some e), w2, b2) → ∃ err w1, r2p.Run w cmd = (([], some err), w1) :=
      fun buf e w2 b2 hr => ⟨e, w2, Pipe.Run_of_read_err w r2p cmd w2 buf e b2 hw hr⟩
    generalize hw1 : (r2p.Write w (cmd ++ [10])).2 = w1 at key
    have hw1' : w1 = (os.File.Write w r2p.stdin (cmd ++ [10])).2 := hw1.symm
    cases hout : r2p.stdout with
    | none =>
      obtain ⟨b1, hr⟩ := bufio.Reader.ReadString_read_err w1 w1 (.pipe r2p) 0 .ErrInvalid
        (by simp [io.Reader.Read, Pipe.Read, hout, os.File.Read]) (by simp)
        (by simp [io.Reader.remaining, io.Reader.handle, hout])
      exact key _ _ _ _ hr
    | some ho =>
      cases hF : w.files[ho.fd]? with
      | none =>
        have hF1 : w1.files[ho.fd]? = none := by
          rw [hw1']; exact os.File.Write_closed w _ _ _ hF
        obtain ⟨b1, hr⟩ := bufio.Reader.ReadString_read_err w1
          { w1 with trace := w1.trace ++ [.read ho.fd bufio.defaultBufSize 0] }
          (.pipe r2p) 0 (.sys 9)
          (by simp only [io.Reader.Read, Pipe.Read, hout, os.File.Read, hF1])
          (by simp)
          (by simp [io.Reader.remaining, io.Reader.handle, hout, hF1])
        exact key _ _ _ _ hr
      | some F =>
        have hfree : 0 ∉ F.rd.pending := by
          simpa [Pipe.outPending, hout, hF] using h
        have hs1 : StreamAt w1 ho.fd F.rd.pending F.rd.ending := by
          rw [hw1']; exact os.File.Write_stream w _ _ _ _ _ ⟨F, hF, rfl, rfl⟩
        obtain ⟨w2, b2, pend2, hr, _, _⟩ :=
          bufio.Reader.ReadString_spec w1 (.pipe r2p) ho 0 F.rd.pending F.rd.ending hout hs1
        have hspec : stringSpec 0 F.rd.ending F.rd.pending =
            (F.rd.pending, some (Error.ofEnding F.rd.ending), []) := by
          unfold stringSpec; rw [bytes.IndexByte_eq_none.mpr hfree]
        rw [hspec] at hr
        exact key _ _ _ _ hr

theorem Event.readsFrom_not_write {f : Option os.File} {ev : Event} (h : ev.readsFrom f) :
    ev.isWrite = false := by
  obtain ⟨_, _, hr⟩ := h
  cases ev <;> simp [Event.isReadOn, Event.isWrite] at hr ⊢

/-- A `Run` whose write succeeds leaves exactly the command line on the input
stream. -/
theorem Pipe.Run_written (w : World) (r2p : Pipe) (cmd : List Byte) (hi : os.File)
    (G : OpenFile) (hin : r2p.stdin = some hi) (hG : w.files[hi.fd]? = some G)
    (hw : (r2p.Write w (cmd ++ [10])).1.2 = none) :
    ∃ G1, (r2p.Run w cmd).2.files[hi.fd]? = some G1 ∧
      G1.wr.written = G.wr.written ++ (cmd ++ [10]) := by
  have hw' : (os.File.Write w (some hi) (cmd ++ [10])).1.2 = none := by
    unfold Pipe.Write at hw; rw [hin] at hw; exact hw
  obtain ⟨G1, hG1, hwr⟩ := os.File.Write_written w hi (cmd ++ [10]) G hG hw'
  have hW : r2p.Write w (cmd ++ [10]) = os.File.Write w (some hi) (cmd ++ [10]) := by
    unfold Pipe.Write; rw [hin]
  rw [Pipe.Run_world_of_write_ok w r2p cmd hw]
  obtain ⟨_, _, _, hfr, _⟩ :=
    bufio.Reader.ReadString_readsOnly (r2p.Write w (cmd ++ [10])).2
      (bufio.NewReader (.pipe r2p)) 0
  have h := hfr hi.fd
  rw [hW, hG1] at h
  rw [hW]
  cases hG2 : ((bufio.NewReader (.pipe r2p)).ReadString
      (os.File.Write w (some hi) (cmd ++ [10])).2 0).2.1.files[hi.fd]? with
  | none => rw [hG2] at h; simp at h
  | some G2 =>
    rw [hG2] at h
    simp only [Option.map_some', Option.some.injEq] at h
    exact ⟨G2, rfl, by rw [h]; exact hwr⟩

/-! ## Close -/

theorem Pipe.Close_of_run_err (w : World) (r2p : Pipe) (text : List Byte) (err : Error)
    (w1 : World) (hf : r2p.File ≠ []) (hr : r2p.Run w quitCmd = ((text, some err), w1)) :
    r2p.Close w = (some err, w1) := by
  unfold Pipe.Close
  rw [if_neg hf, hr]

theorem Pipe.Close_of_run_ok (w : World) (r2p : Pipe) (text : List Byte)
    (w1 : World) (hf : r2p.File ≠ []) (hr : r2p.Run w quitCmd = ((text, none), w1)) :
    r2p.Close w = exec.Cmd.Wait w1 r2p.cmd := by
  unfold Pipe.Close
  rw [if_neg hf, hr]

theorem exec.Cmd.Wait_frame (w : World) (c : exec.Cmd) :
    (exec.Cmd.Wait w (some c)).2.files = w.files ∧
    ∃ evs, (exec.Cmd.Wait w (some c)).2.trace = w.trace ++ evs ∧
      ∀ ev ∈ evs, ev.isWrite = false := by
  simp only [exec.Cmd.Wait]
  cases w.procs[c.pid]? with
  | none => exact ⟨rfl, [], by simp, by simp⟩
  | some P => exact ⟨rfl, [.wait c.pid], rfl, by simp [Event.isWrite]⟩

theorem exec.Cmd.Wait_result (w : World) (c : exec.Cmd) (P : Proc)
    (h : w.procs[c.pid]? = some P) :
    (exec.Cmd.Wait w (some c)).1 = if P.waited = 0 then P.exit else some .waitTwice := by
  simp only [exec.Cmd.Wait, h]

/-! ## The claims -/

/-- C1, as amended: when the write of the command line is accepted and the
pending bytes of the output stream are `b` followed by one NUL, with no NUL in
`b`, then `Run` succeeds whatever the command and however the stream delivers
its bytes; the result does not end in a newline or a NUL, `b` is the result
followed by newlines only, an empty body gives the empty string, and the stream
is left empty. -/
theorem Pipe.Run_returns_body (w : World) (r2p : Pipe) (cmd b : List Byte) (ho : os.File)
    (e : Option Nat) (hout : r2p.stdout = some ho)
    (hw : (r2p.Write w (cmd ++ [10])).1.2 = none)
    (hs : StreamAt w ho.fd (b ++ [0]) e) (hb : 0 ∉ b) :
    ∃ out w1, r2p.Run w cmd = ((out, none), w1) ∧
      out.getLast? ≠ some 10 ∧ out.getLast? ≠ some 0 ∧
      (∃ k, b = out ++ List.replicate k 10) ∧ (b = [] → out = []) ∧
      StreamAt w1 ho.fd [] e := by
  obtain ⟨w1, over, pend1, hr, hov, hs1⟩ := Pipe.Run_found w r2p cmd b [] ho e hout hw hs hb
  obtain ⟨h10, h0, k, hk⟩ := strings.TrimRight_response b hb
  have hp : pend1 = [] := (List.append_eq_nil.mp hov).2
  rw [hp] at hs1
  refine ⟨_, w1, hr, h10, h0, ⟨k, hk⟩, ?_, hs1⟩
  intro hnil
  subst hnil
  exact (List.append_eq_nil.mp hk.symm).1

/-- C1, witness: the body "a\nb\n\n" arriving in three reads gives "a\nb". -/
theorem Pipe.Run_returns_body_witness :
    ∃ out w1, demoPipe.Run (demoWorld [97, 10, 98, 10, 10, 0] [0, 1] none) [105] =
        ((out, none), w1) ∧
      out.getLast? ≠ some 10 ∧ out.getLast? ≠ some 0 ∧
      (∃ k, [97, 10, 98, 10, 10] = out ++ List.replicate k 10) ∧
      (([97, 10, 98, 10, 10] : List Byte) = [] → out = []) ∧
      StreamAt w1 1 [] none :=
  Pipe.Run_returns_body (demoWorld [97, 10, 98, 10, 10, 0] [0, 1] none) demoPipe [105]
    [97, 10, 98, 10, 10] { fd := 1, name := [] } none rfl (by decide) ⟨_, rfl, rfl, rfl⟩
    (by decide)

/-- C1, counterexample: the output stream holds "a" and one NUL, but the input
stream is a broken pipe; `Run` returns the write error, not "a". -/
theorem Pipe.Run_broken_input :
    demoPipe.stdout = some { fd := 1, name := [] } ∧
    StreamAt (demoWorld [97, 0] [] (some 0)) 1 ([97] ++ [0]) none ∧ (0 : Byte) ∉ [97] ∧
    (demoPipe.Run (demoWorld [97, 0] [] (some 0)) [105]).1 = ([], some (.sys 32)) :=
  ⟨rfl, ⟨_, rfl, rfl, rfl⟩, by decide, by decide⟩

/-- C3: when no NUL is pending on the output stream (so the stream ends or
fails before a NUL is read), `Run` returns an error and the empty string. -/
theorem Pipe.Run_without_sentinel (w : World) (r2p : Pipe) (cmd : List Byte)
    (h : 0 ∉ r2p.outPending w) : ∃ err w1, r2p.Run w cmd = (([], some err), w1) :=
  Pipe.Run_not_found w r2p cmd h

/-- C3, witness: the stream holds "ab" and then closes. -/
theorem Pipe.Run_without_sentinel_witness :
    ∃ err w1, demoPipe.Run (demoWorld [97, 98] [] none) [105] = (([], some err), w1) :=
  Pipe.Run_without_sentinel (demoWorld [97, 98] [] none) demoPipe [105] (by decide)

/-- C4: `Run` makes one `Write`, of the command followed by one newline, before
any `Read`, and every later call is a `Read` of the output stream.  When that
write succeeds the input stream has received exactly those bytes.  When it
fails `Run` returns its error with the empty string, makes no further call and
leaves every read side as it was. -/
theorem Pipe.Run_writes_first (w : World) (r2p : Pipe) (cmd : List Byte) (hi : os.File)
    (hin : r2p.stdin = some hi) :
    (∃ reads, (r2p.Run w cmd).2.trace = w.trace ++ Event.write hi.fd (cmd ++ [10]) :: reads ∧
      (∀ ev ∈ reads, ev.readsFrom r2p.stdout) ∧
      ((r2p.Write w (cmd ++ [10])).1.2 ≠ none → reads = [])) ∧
    (∀ G, w.files[hi.fd]? = some G → (r2p.Write w (cmd ++ [10])).1.2 = none →
      ∃ G1, (r2p.Run w cmd).2.files[hi.fd]? = some G1 ∧
        G1.wr.written = G.wr.written ++ (cmd ++ [10])) ∧
    (∀ err, (r2p.Write w (cmd ++ [10])).1.2 = some err →
      (r2p.Run w cmd).1 = ([], some err) ∧
      ∀ j : Nat, ((r2p.Run w cmd).2.files[j]?).map OpenFile.rd =
        (w.files[j]?).map OpenFile.rd) := by
  refine ⟨Pipe.Run_trace w r2p cmd hi hin,
    fun G hG hw => Pipe.Run_written w r2p cmd hi G hin hG hw, ?_⟩
  intro err herr
  rw [Pipe.Run_of_write_err w r2p cmd err herr]
  exact ⟨rfl, (os.File.Write_frame w r2p.stdin (cmd ++ [10])).2.2.2⟩

/-- C4, witness: the command "i" on the demo pipe. -/
theorem Pipe.Run_writes_first_witness :
    ∃ reads, (demoPipe.Run (demoWorld [97, 0] [] none) [105]).2.trace =
        (demoWorld [97, 0] [] none).trace ++ Event.write 0 ([105] ++ [10]) :: reads ∧
      (∀ ev ∈ reads, ev.readsFrom demoPipe.stdout) ∧
      ((demoPipe.Write (demoWorld [97, 0] [] none) ([105] ++ [10])).1.2 ≠ none → reads = []) :=
  (Pipe.Run_writes_first (demoWorld [97, 0] [] none) demoPipe [105] { fd := 0, name := [] } rfl).1

/-- C5: attach-mode construction returns an error and no `Pipe`, and does
nothing else, when R2PIPE_IN or R2PIPE_OUT is unset, and when the value of
either does not parse as an integer. -/
theorem NewPipe_attach_rejects (w : World)
    (h : w.env.lookup R2PIPE_IN = none ∨ w.env.lookup R2PIPE_OUT = none ∨
      (strconv.Atoi (os.Getenv w R2PIPE_IN)).toOption = none ∨
      (strconv.Atoi (os.Getenv w R2PIPE_OUT)).toOption = none) :
    ∃ err, NewPipe w [] = (.error err, w) := by
  simp only [NewPipe, if_true, newPipeFd]
  by_cases hempty : os.Getenv w R2PIPE_IN = [] ∨ os.Getenv w R2PIPE_OUT = []
  · rw [if_pos hempty]; exact ⟨_, rfl⟩
  · rw [if_neg hempty]
    rw [not_or] at hempty
    cases hin : strconv.Atoi (os.Getenv w R2PIPE_IN) with
    | error err => exact ⟨_, rfl⟩
    | ok i =>
      cases hout : strconv.Atoi (os.Getenv w R2PIPE_OUT) with
      | error err => exact ⟨_, rfl⟩
      | ok o =>
        exfalso
        rcases h with h | h | h | h
        · exact hempty.1 (by simp [os.Getenv, h])
        · exact hempty.2 (by simp [os.Getenv, h])
        · rw [hin] at h; simp [Except.toOption] at h
        · rw [hout] at h; simp [Except.toOption] at h

/-- C5, witness: R2PIPE_IN is "abc" and R2PIPE_OUT is "4". -/
theorem NewPipe_attach_rejects_witness :
    ∃ err, NewPipe (envWorld [97, 98, 99] [52]) [] = (.error err, envWorld [97, 98, 99] [52]) :=
  NewPipe_attach_rejects (envWorld [97, 98, 99] [52]) (Or.inr (Or.inr (Or.inl (by decide))))

/-- C6, as amended: when R2PIPE_IN and R2PIPE_OUT parse to integers `i` and `o`
that are not negative, attach-mode construction returns a `Pipe` with an empty
target and no process handle whose reads are reads of descriptor `i` and whose
writes are writes of descriptor `o`, and it leaves the world untouched (no
read, no write). -/
theorem NewPipe_attach_descriptors (w : World) (i o : Int)
    (hi : strconv.Atoi (os.Getenv w R2PIPE_IN) = .ok i)
    (ho : strconv.Atoi (os.Getenv w R2PIPE_OUT) = .ok o) (hi0 : 0 ≤ i) (ho0 : 0 ≤ o) :
    ∃ r2p, NewPipe w [] = (.ok r2p, w) ∧ r2p.File = [] ∧ r2p.cmd = none ∧
      r2p.stdout = some { fd := i.toNat, name := R2PIPE_IN } ∧
      r2p.stdin = some { fd := o.toNat, name := R2PIPE_OUT } ∧
      (∀ w2 cap, r2p.Read w2 cap =
        os.File.Read w2 (some { fd := i.toNat, name := R2PIPE_IN }) cap) ∧
      (∀ w2 p, r2p.Write w2 p =
        os.File.Write w2 (some { fd := o.toNat, name := R2PIPE_OUT }) p) := by
  have hne : ¬ (os.Getenv w R2PIPE_IN = [] ∨ os.Getenv w R2PIPE_OUT = []) := by
    rw [not_or]
    exact ⟨strconv.Atoi_ok_ne_nil hi, strconv.Atoi_ok_ne_nil ho⟩
  simp only [NewPipe, if_true, newPipeFd]
  rw [if_neg hne, hi, ho]
  simp only
  rw [os.NewFile_uintptr i _ hi0 (strconv.Atoi_ok_lt hi hi0),
    os.NewFile_uintptr o _ ho0 (strconv.Atoi_ok_lt ho ho0)]
  exact ⟨_, rfl, rfl, rfl, rfl, rfl, fun _ _ => rfl, fun _ _ => rfl⟩

/-- C6, witness: R2PIPE_IN is "1" and R2PIPE_OUT is "0". -/
theorem NewPipe_attach_descriptors_witness :
    ∃ r2p, NewPipe (envWorld [49] [48]) [] = (.ok r2p, envWorld [49] [48]) ∧
      r2p.File = [] ∧ r2p.cmd = none ∧
      r2p.stdout = some { fd := (1 : Int).toNat, name := R2PIPE_IN } ∧
      r2p.stdin = some { fd := (0 : Int).toNat, name := R2PIPE_OUT } ∧
      (∀ w2 cap, r2p.Read w2 cap =
        os.File.Read w2 (some { fd := (1 : Int).toNat, name := R2PIPE_IN }) cap) ∧
      (∀ w2 p, r2p.Write w2 p =
        os.File.Write w2 (some { fd := (0 : Int).toNat, name := R2PIPE_OUT }) p) :=
  NewPipe_attach_descriptors (envWorld [49] [48]) 1 0 rfl rfl (by decide) (by decide)

/-- C6, counterexample: R2PIPE_IN is "-1", an integer, and R2PIPE_OUT is "4".
Construction returns a `Pipe` whose output stream is the nil file: its reads
fail with os.ErrInvalid and come from no descriptor.  And when R2PIPE_IN is
"9223372036854775808", an integer too, construction returns an error. -/
theorem NewPipe_attach_negative :
    (strconv.Atoi [45, 49]).toOption = some (-1) ∧
    (NewPipe (envWorld [45, 49] [52]) []).1.toOption =
      some { File := [], cmd := none, stdin := some { fd := 4, name := R2PIPE_OUT },
             stdout := none } ∧
    (os.File.Read (envWorld [45, 49] [52]) none 4096).1 = ([], some .ErrInvalid) ∧
    (NewPipe (envWorld [57, 50, 50, 51, 51, 55, 50, 48, 51, 54, 56, 53, 52, 55, 55, 53, 56,
      48, 56] [52]) []).1.toOption = none := by
  decide

/-- C7: `Close` on an attach-mode `Pipe` returns no error and leaves the world
untouched: no write, no read, no wait. -/
theorem Pipe.Close_attached (w : World) (r2p : Pipe) (h : r2p.File = []) :
    r2p.Close w = (none, w) := by
  unfold Pipe.Close
  rw [if_pos h]

/-- C7, witness: the attach-mode pipe of the demo world. -/
theorem Pipe.Close_attached_witness :
    demoAttached.Close (demoWorld [97, 0] [] none) = (none, demoWorld [97, 0] [] none) :=
  Pipe.Close_attached (demoWorld [97, 0] [] none) demoAttached rfl

/-- C8: `Close` on a spawn-mode `Pipe` makes exactly one `Write`, of "q!" and a
newline, before anything else.  When the round trip of the quit command fails,
`Close` returns that error.  Otherwise `Close` is the `Wait` on the child in
the world the round trip left, so it returns the exit status of a child not
waited on before, whatever the text of the response.  When the write is
accepted and the output stream holds a NUL, the round trip succeeds and the
stream has been read through that NUL. -/
theorem Pipe.Close_spawned (w : World) (r2p : Pipe) (c : exec.Cmd) (hi : os.File)
    (hf : r2p.File ≠ []) (hc : r2p.cmd = some c) (hin : r2p.stdin = some hi) :
    (∃ rest, (r2p.Close w).2.trace = w.trace ++ Event.write hi.fd [113, 33, 10] :: rest ∧
      ∀ ev ∈ rest, ev.isWrite = false) ∧
    (∀ err, (r2p.Run w quitCmd).1.2 = some err → (r2p.Close w).1 = some err) ∧
    ((r2p.Run w quitCmd).1.2 = none →
      r2p.Close w = exec.Cmd.Wait (r2p.Run w quitCmd).2 (some c)) ∧
    (∀ P, w.procs[c.pid]? = some P → (r2p.Run w quitCmd).1.2 = none →
      (r2p.Close w).1 = if P.waited = 0 then P.exit else some .waitTwice) ∧
    (∀ ho pre post e, r2p.stdout = some ho → StreamAt w ho.fd (pre ++ 0 :: post) e →
      0 ∉ pre → (r2p.Write w [113, 33, 10]).1.2 = none →
      (r2p.Run w quitCmd).1.2 = none ∧
        ∃ over pend1, over ++ pend1 = post ∧ StreamAt (r2p.Close w).2 ho.fd pend1 e) := by
  obtain ⟨reads, htr, hreads, _⟩ := Pipe.Run_trace w r2p quitCmd hi hin
  have hq : quitCmd ++ [10] = [113, 33, 10] := rfl
  rw [hq] at htr
  have hprocs := Pipe.Run_procs w r2p quitCmd
  rcases hrun : r2p.Run w quitCmd with ⟨⟨text, err⟩, w1⟩
  rw [hrun] at htr hprocs
  simp only at htr hprocs
  cases err with
  | some err =>
    have hcl := Pipe.Close_of_run_err w r2p text err w1 hf hrun
    refine ⟨⟨reads, by rw [hcl]; exact htr,
        fun ev hev => Event.readsFrom_not_write (hreads ev hev)⟩, ?_, ?_, ?_, ?_⟩
    · intro err2 h2
      simp only [Option.some.injEq] at h2
      rw [hcl, ← h2]
    · intro h2; simp at h2
    · intro P _ h2; simp at h2
    · intro ho pre post e hout hs hpre hw
      exfalso
      obtain ⟨w2, over, pend1, hr, _, _⟩ :=
        Pipe.Run_found w r2p quitCmd pre post ho e hout (by rw [hq]; exact hw) hs hpre
      rw [hrun] at hr
      simp at hr
  | none =>
    have hcl := Pipe.Close_of_run_ok w r2p text w1 hf hrun
    rw [hc] at hcl
    obtain ⟨hfiles, evs, hwt, hevs⟩ := exec.Cmd.Wait_frame w1 c
    refine ⟨⟨reads ++ evs, ?_, ?_⟩, ?_, ?_, ?_, ?_⟩
    · rw [hcl, hwt, htr]; simp
    · intro ev hev
      rcases List.mem_append.mp hev with hm | hm
      · exact Event.readsFrom_not_write (hreads ev hm)
      · exact hevs ev hm
    · intro err2 h2; simp at h2
    · intro _; exact hcl
    · intro P hP _
      rw [hcl]
      exact exec.Cmd.Wait_result w1 c P (by rw [hprocs]; exact hP)
    · intro ho pre post e hout hs hpre hw
      obtain ⟨w2, over, pend1, hr, hov, hs2⟩ :=
        Pipe.Run_found w r2p quitCmd pre post ho e hout (by rw [hq]; exact hw) hs hpre
      rw [hrun] at hr
      have hw2 : w1 = w2 := congrArg Prod.snd hr
      subst hw2
      refine ⟨rfl, over, pend1, hov, ?_⟩
      obtain ⟨F, hF, hp, he⟩ := hs2
      exact ⟨F, by rw [hcl, hfiles]; exact hF, hp, he⟩

/-- C8, witness: the demo pipe, whose engine answers the quit command with
"bye" and a NUL and then exits cleanly; `Close` returns no error. -/
theorem Pipe.Close_spawned_witness :
    (demoWorld [98, 121, 101, 0] [] none).procs[(0 : Nat)]? = some { exit := none, waited := 0 } ∧
    (demoPipe.Run (demoWorld [98, 121, 101, 0] [] none) quitCmd).1.2 = none ∧
    (demoPipe.Close (demoWorld [98, 121, 101, 0] [] none)).1 =
      if (0 : Nat) = 0 then none else some .waitTwice :=
  ⟨rfl, by decide,
    (Pipe.Close_spawned (demoWorld [98, 121, 101, 0] [] none) demoPipe
      { args := engineArgv [47], pid := 0 } { fd := 0, name := [] }
      (by decide) rfl rfl).2.2.2.1 { exit := none, waited := 0 } rfl (by decide)⟩

end r2pipe
